import Mathlib

/-!
# Gauss-Jordan elimination (`src/main.c`)

A shallow embedding of `rref`, `swap`, `mult` and `add` from `src/main.c`
over exact rational arithmetic, together with the trace written to the
TeX file, and theorems about them.

* The `double A[m][n]` array is a list of `m` rows, each a list of `n`
  rationals.  The dimensions `m` and `n` (fixed by `#define` in the source)
  are parameters.
* `EPSILON` is `1 / 1000000`.
* The text written with `fprintf` / `texmatrix` is a list of `Step`s:
  a narrative together with the matrix printed after it, if any.
* `State.cols` and `State.evs` are ghost records: they do not influence the
  computation and only remember what the run did (one record per iteration
  of the column loop; every cell read by `rref`, every division and every
  call of a row operation).
* `GJE.Fp` embeds the matrix computation of `rref` a second time, on values
  `FV` that can overflow to an infinity and become NaN as a `double` does
  (finite values stay exact).  It shows where a statement depends on exact
  arithmetic.
-/

namespace GJE

/-- The matrix `double A[m][n]`: a list of rows. -/
abbrev Mat := List (List ℚ)

/-- `#define EPSILON 1e-6`. -/
def EPSILON : ℚ := 1 / 1000000

/-- The read `A[i][k]`. -/
def get (A : Mat) (i k : Nat) : ℚ := (A.getD i []).getD k 0

/-- The write `A[i][k] = v`. -/
def set (A : Mat) (i k : Nat) (v : ℚ) : Mat := List.set A i ((A.getD i []).set k v)

/-- `A` is an `m x n` matrix. -/
def WF (m n : Nat) (A : Mat) : Prop := A.length = m ∧ ∀ row ∈ A, row.length = n

instance (m n : Nat) (A : Mat) : Decidable (WF m n A) := by
  unfold WF; infer_instance

/-- Body of the loop of `swap`: `temp[i] = A[a][i]; A[a][i] = A[b][i]; A[b][i] = temp[i];`. -/
def swapCell (a b : Nat) (A : Mat) (i : Nat) : Mat :=
  let temp := get A a i
  let A1 := set A a i (get A b i)
  set A1 b i temp

/-- `void swap(double A[m][n], int a, int b)`: `for (int i = 0; i < n; i++) ...`. -/
def swap (n : Nat) (A : Mat) (a b : Nat) : Mat :=
  (List.range n).foldl (swapCell a b) A

/-- Body of the loop of `mult`: `A[a][i] *= c;`. -/
def multCell (a : Nat) (c : ℚ) (A : Mat) (i : Nat) : Mat :=
  set A a i (get A a i * c)

/-- `void mult(double A[m][n], int a, double c)`. -/
def mult (n : Nat) (A : Mat) (a : Nat) (c : ℚ) : Mat :=
  (List.range n).foldl (multCell a c) A

/-- Body of the loop of `add`: `A[a][i] += c * A[b][i];`. -/
def addCell (a b : Nat) (c : ℚ) (A : Mat) (i : Nat) : Mat :=
  set A a i (get A a i + c * get A b i)

/-- `void add(double A[m][n], int a, int b, double c)`. -/
def add (n : Nat) (A : Mat) (a b : Nat) (c : ℚ) : Mat :=
  (List.range n).foldl (addCell a b c) A

/-- The sentence written before a matrix (or alone, for a skipped column).
Row and column numbers are the 1-based numbers the source prints. -/
inductive Narr
  /-- "We begin with our original matrix:" -/
  | initial
  /-- "We will swap Row a+1 with Row anchor+1 as a suitable pivot:" -/
  | swapRows (a1 anchor1 : Nat)
  /-- "We skip column j+1 because no pivot ... exists in this column." -/
  | skipCol (j1 : Nat)
  /-- "We now normalize Row anchor+1 so the pivot becomes equal to 1:" -/
  | normalize (anchor1 : Nat)
  /-- "We now add Row anchor+1 multiplied by a factor of c to Row i+1.
  This eliminates the entry in Row i+1 for Column j+1." -/
  | eliminate (anchor1 : Nat) (factor : ℚ) (i1 j1 : Nat)
  /-- "And thus we have our matrix in its RREF form:" -/
  | final
  deriving DecidableEq

/-- One step of the derivation written to the file: the narrative and the
matrix printed by `texmatrix` right after it (none for a skipped column). -/
structure Step where
  narr : Narr
  snap : Option Mat
  deriving DecidableEq

/-- Ghost record of what `rref` touches. -/
inductive Ev
  /-- `rref` reads `A[i][k]` -/
  | read (i k : Nat)
  /-- call `swap(A, a, b)` -/
  | swapCall (a b : Nat)
  /-- the division `1.0 / d` -/
  | recip (d : ℚ)
  /-- call `mult(A, a, c)` -/
  | multCall (a : Nat) (c : ℚ)
  /-- call `add(A, a, b, c)` -/
  | addCall (a b : Nat) (c : ℚ)
  deriving DecidableEq

/-- Ghost record of one iteration of the column loop: the column `j`; the
value of `anchor` and the matrix when the iteration starts; the row at which
the pivot search stopped (`none`: `anchorExists == FALSE`); the steps written
to the file during the iteration; the value of `anchor` and the matrix when
the iteration ends. -/
structure ColRec where
  j : Nat
  anchor : Nat
  A : Mat
  found : Option Nat
  out : List Step
  anchorAfter : Nat
  Aafter : Mat
  deriving DecidableEq

/-- The variables of `rref`, the steps written so far, and the ghost records. -/
structure State where
  A : Mat
  anchor : Nat
  steps : List Step
  cols : List ColRec
  evs : List Ev
  deriving DecidableEq

/-- What one iteration of the column loop works on: the matrix, the steps it
has written and the cells and calls it has made so far. -/
structure Iter where
  A : Mat
  out : List Step
  evs : List Ev
  deriving DecidableEq

/-- The pivot search `for (int a = anchor; a < m; a++) if (fabs(A[a][j]) > EPSILON) { ...; break; }`:
the row at which the test succeeds, and the cells read.  `fuel` is `m - a`. -/
def findPivot (A : Mat) (j : Nat) : Nat → Nat → List Ev → Option Nat × List Ev
  | 0, _, evs => (none, evs)
  | fuel + 1, a, evs =>
    if |get A a j| > EPSILON then (some a, evs ++ [Ev.read a j])
    else findPivot A j fuel (a + 1) (evs ++ [Ev.read a j])

/-- Body of the elimination loop, for row `i`:
`if (i != anchor) { fprintf(...); add(A, i, anchor, -A[i][j]); texmatrix(myFile, A); }`. -/
def elimRow (n j anchor : Nat) (it : Iter) (i : Nat) : Iter :=
  if i ≠ anchor then
    let c := -get it.A i j
    let A1 := add n it.A i anchor c
    { A := A1
      out := it.out ++ [⟨Narr.eliminate (anchor + 1) c (i + 1) (j + 1), some A1⟩]
      evs := it.evs ++ [Ev.read i j, Ev.addCall i anchor c] }
  else it

/-- The elimination loop `for (int i = 0; i < m; i++)`. -/
def elimLoop (m n j anchor : Nat) (it : Iter) : Iter :=
  (List.range m).foldl (elimRow n j anchor) it

/-- The part of an iteration of the column loop that runs when the pivot
search stopped at row `a`: the swap (with its step when `anchor != a`), the
normalization and the elimination loop.  `rd` are the cells read by the
search. -/
def pivotIter (m n j : Nat) (A : Mat) (anchor a : Nat) (rd : List Ev) : Iter :=
  let A1 := swap n A a anchor
  let out1 : List Step :=
    if anchor ≠ a then [⟨Narr.swapRows (a + 1) (anchor + 1), some A1⟩] else []
  let d := get A1 anchor j
  let A2 := mult n A1 anchor (1 / d)
  elimLoop m n j anchor
    { A := A2
      out := out1 ++ [⟨Narr.normalize (anchor + 1), some A2⟩]
      evs := rd ++ [Ev.swapCall a anchor, Ev.read anchor j, Ev.recip d,
                    Ev.multCall anchor (1 / d)] }

/-- Body of the column loop of `rref` for column `j`.  The Boolean is `true`
when the iteration ends with `break` (the test `anchor > m` after `anchor++`). -/
def colStep (m n j : Nat) (s : State) : State × Bool :=
  match findPivot s.A j (m - s.anchor) s.anchor [] with
  | (none, rd) =>
    let out : List Step := [⟨Narr.skipCol (j + 1), none⟩]
    ({ A := s.A
       anchor := s.anchor
       steps := s.steps ++ out
       cols := s.cols ++ [⟨j, s.anchor, s.A, none, out, s.anchor, s.A⟩]
       evs := s.evs ++ rd }, false)
  | (some a, rd) =>
    let it := pivotIter m n j s.A s.anchor a rd
    let anchor1 := s.anchor + 1
    ({ A := it.A
       anchor := anchor1
       steps := s.steps ++ it.out
       cols := s.cols ++ [⟨j, s.anchor, s.A, some a, it.out, anchor1, it.A⟩]
       evs := s.evs ++ it.evs }, decide (anchor1 > m))

/-- The column loop `for (int j = 0; j < n; j++)`, from column `j` on;
`fuel` is `n - j`. -/
def colLoop (m n : Nat) : Nat → Nat → State → State
  | 0, _, s => s
  | fuel + 1, j, s =>
    match colStep m n j s with
    | (s1, true) => s1
    | (s1, false) => colLoop m n fuel (j + 1) s1

/-- The state of `rref` before the column loop: `anchor = 0`, the initial
matrix written to the file. -/
def initState (A : Mat) : State :=
  { A := A, anchor := 0, steps := [⟨Narr.initial, some A⟩], cols := [], evs := [] }

/-- `void rref(double A[m][n])`: the final state, with the complete trace. -/
def rref (m n : Nat) (A : Mat) : State :=
  let s := colLoop m n n 0 (initState A)
  { s with steps := s.steps ++ [⟨Narr.final, some s.A⟩] }

/-- The matrix hard-coded in `main`. -/
def mainA : Mat :=
  [[2, -5, -3, 16], [5, -6, 6, -13], [-2, -3, 6, 10], [23, -19, -33, 27]]

/-- What `swap` does to a column. -/
def swapCol (a b : Nat) (col : Nat → ℚ) (i : Nat) : ℚ :=
  if i = a then col b else if i = b then col a else col i

/-- What `mult` does to a column. -/
def multCol (a : Nat) (c : ℚ) (col : Nat → ℚ) (i : Nat) : ℚ :=
  if i = a then col a * c else col i

/-- What `add` does to a column. -/
def addCol (a b : Nat) (c : ℚ) (col : Nat → ℚ) (i : Nat) : ℚ :=
  if i = a then col a + c * col b else col i

/-- The pivots placed by a run, in the order they were placed, as
(row, column) pairs: the iterations of the column loop whose pivot search
succeeded, with the value of `anchor` and `j` in that iteration. -/
def pivots (s : State) : List (Nat × Nat) :=
  s.cols.filterMap (fun r => r.found.map (fun _ => (r.anchor, r.j)))

/-- The `m x n` list matrix as a Mathlib matrix. -/
def toMatrix (m n : Nat) (A : Mat) : Matrix (Fin m) (Fin n) ℚ :=
  fun i k => get A i.val k.val

/-- The matrix after the elimination loop has processed the rows below `t`. -/
def elimMat (n j anchor : Nat) (A : Mat) (t : Nat) : Mat :=
  ((List.range t).foldl (elimRow n j anchor) ⟨A, [], []⟩).A

/-- The step written by the elimination loop for row `i`. -/
def elimStep (n j anchor : Nat) (A : Mat) (i : Nat) : Step :=
  ⟨Narr.eliminate (anchor + 1) (-get (elimMat n j anchor A i) i j) (i + 1) (j + 1),
    some (elimMat n j anchor A (i + 1))⟩

/-- The read and the call made by the elimination loop for row `i`. -/
def elimEvs (n j anchor : Nat) (A : Mat) (i : Nat) : List Ev :=
  [Ev.read i j, Ev.addCall i anchor (-get (elimMat n j anchor A i) i j)]

/-- The matrix after the swap and the normalization of an iteration whose
pivot search stopped at row `a`. -/
def normMat (n j : Nat) (A : Mat) (anchor a : Nat) : Mat :=
  mult n (swap n A a anchor) anchor (1 / get (swap n A a anchor) anchor j)

/-- The pivot search of the iteration stopped at a row `a != anchor`. -/
def ColRec.swapped (r : ColRec) : Bool :=
  match r.found with
  | some a => decide (a ≠ r.anchor)
  | none => false

/-- Number of iterations whose pivot search stopped at a row `a != anchor`. -/
def swapCount (s : State) : Nat :=
  (s.cols.filter ColRec.swapped).length

/-- Number of iterations that found a pivot. -/
def pivotCount (s : State) : Nat :=
  (s.cols.filter (fun r => r.found.isSome)).length

/-- Number of iterations that skipped their column. -/
def skipCount (s : State) : Nat :=
  (s.cols.filter (fun r => r.found.isNone)).length

/-- What makes a read, a division or a call of a row operation safe for an
`m x n` matrix: the cell read lies in `[0, m) x [0, n)`, the rows passed to
`swap`, `mult` and `add` lie in `[0, m)`, and the divisor of `1.0 / d` is
larger than `EPSILON` in absolute value, hence not zero. -/
def Ev.ok (m n : Nat) : Ev → Prop
  | Ev.read i k => i < m ∧ k < n
  | Ev.swapCall a b => a < m ∧ b < m
  | Ev.recip d => |d| > EPSILON ∧ d ≠ 0
  | Ev.multCall a _ => a < m
  | Ev.addCall a b _ => a < m ∧ b < m

/-- The tolerance hides nothing: in every iteration that skipped its column,
the entries of that column in the rows `anchor .. m-1` were exactly zero. -/
def ExactSkips (m : Nat) (cols : List ColRec) : Prop :=
  ∀ rec ∈ cols, rec.found = none → ∀ i, rec.anchor ≤ i → i < m → get rec.A i rec.j = 0

/-- Column `k` holds the leading (first non-zero) entry of row `i`. -/
def IsLead (n : Nat) (A : Mat) (i k : Nat) : Prop :=
  k < n ∧ get A i k ≠ 0 ∧ ∀ c < k, get A i c = 0

/-- Row `i` is all zero. -/
def IsZeroRow (n : Nat) (A : Mat) (i : Nat) : Prop :=
  ∀ k < n, get A i k = 0

/-- The leading entry of row `i`, if any, is 1. -/
def LeadIsOne (n : Nat) (A : Mat) (i : Nat) : Prop :=
  ∀ k < n, IsLead n A i k → get A i k = 1

/-- The leading entry of row `i`, if any, is the only non-zero entry of its column. -/
def LeadAlone (m n : Nat) (A : Mat) (i : Nat) : Prop :=
  ∀ k < n, IsLead n A i k → ∀ r < m, r ≠ i → get A r k = 0

/-- The leading entry of row `i` is in a column before the leading entry of row `r`. -/
def LeadBefore (n : Nat) (A : Mat) (i r : Nat) : Prop :=
  ∀ k < n, ∀ c < n, IsLead n A i k → IsLead n A r c → k < c

instance (m : Nat) (cols : List ColRec) : Decidable (ExactSkips m cols) := by
  unfold ExactSkips; infer_instance

instance (n : Nat) (A : Mat) (i k : Nat) : Decidable (IsLead n A i k) := by
  unfold IsLead; infer_instance

instance (n : Nat) (A : Mat) (i : Nat) : Decidable (IsZeroRow n A i) := by
  unfold IsZeroRow; infer_instance

instance (n : Nat) (A : Mat) (i : Nat) : Decidable (LeadIsOne n A i) := by
  unfold LeadIsOne; infer_instance

instance (m n : Nat) (A : Mat) (i : Nat) : Decidable (LeadAlone m n A i) := by
  unfold LeadAlone; infer_instance

instance (n : Nat) (A : Mat) (i r : Nat) : Decidable (LeadBefore n A i r) := by
  unfold LeadBefore; infer_instance

/-- Reduced row-echelon form: every non-zero row has leading entry 1; that
leading entry is the only non-zero entry of its column; the columns of the
leading entries strictly increase down the rows; the all-zero rows are below
every non-zero row. -/
def IsRREF (m n : Nat) (A : Mat) : Prop :=
  (∀ i < m, LeadIsOne n A i) ∧
  (∀ i < m, LeadAlone m n A i) ∧
  (∀ i < m, ∀ r < m, i < r → LeadBefore n A i r) ∧
  (∀ i < m, ∀ r < m, IsZeroRow n A i → ¬ IsZeroRow n A r → r < i)

instance (m n : Nat) (A : Mat) : Decidable (IsRREF m n A) := by
  unfold IsRREF; infer_instance

/-- The steps an iteration writes when its pivot search stopped at row `a`:
the swap step when `anchor != a`, the normalize step, one elimination step for
every row other than the anchor row. -/
def pivotOut (m n j : Nat) (A : Mat) (anchor a : Nat) : List Step :=
  ((if anchor ≠ a then [⟨Narr.swapRows (a + 1) (anchor + 1), some (swap n A a anchor)⟩]
    else []) ++
   [⟨Narr.normalize (anchor + 1), some (normMat n j A anchor a)⟩]) ++
  ((List.range m).filter (fun i => decide (i ≠ anchor))).map
    (elimStep n j anchor (normMat n j A anchor a))

/-- A record describes an iteration of the column loop faithfully: it is what
the loop body does in column `j` from the recorded matrix and anchor. -/
def RecOK (m n : Nat) (rec : ColRec) : Prop :=
  rec.j < n ∧ rec.anchor ≤ rec.j ∧ rec.anchor ≤ m ∧ WF m n rec.A ∧
  ((rec.found = none ∧
      (∀ i, rec.anchor ≤ i → i < m → ¬ |get rec.A i rec.j| > EPSILON) ∧
      rec.out = [⟨Narr.skipCol (rec.j + 1), none⟩] ∧
      rec.anchorAfter = rec.anchor ∧ rec.Aafter = rec.A) ∨
   (∃ p, rec.found = some p ∧ rec.anchor ≤ p ∧ p < m ∧
      |get rec.A p rec.j| > EPSILON ∧
      (∀ i, rec.anchor ≤ i → i < p → ¬ |get rec.A i rec.j| > EPSILON) ∧
      rec.out = pivotOut m n rec.j rec.A rec.anchor p ∧
      rec.anchorAfter = rec.anchor + 1 ∧
      rec.Aafter = elimMat n rec.j rec.anchor (normMat n rec.j rec.A rec.anchor p) m))

/-- Two consecutive records: the second starts where the first ended. -/
def Linked (r1 r2 : ColRec) : Prop :=
  r2.anchor = r1.anchorAfter ∧ r2.A = r1.Aafter

/-- The narrative is a swap sentence. -/
def Narr.isSwap : Narr → Bool
  | Narr.swapRows _ _ => true
  | _ => false

/-- The narrative is a normalize sentence. -/
def Narr.isNormalize : Narr → Bool
  | Narr.normalize _ => true
  | _ => false

/-- The narrative is a skip sentence. -/
def Narr.isSkip : Narr → Bool
  | Narr.skipCol _ => true
  | _ => false

/-- Replaying one operation step on the matrix `A`, when the trace has
already dealt with `j` columns: the swap of the two named rows; the scaling of
the named row by the reciprocal of its pivot, the entry in the column the
trace has reached (every skip step and every normalize step accounts for one
column); the addition of the narrated factor times the anchor row to the
named row; nothing for a skip.  The initial and the final step are not
operations. -/
def replayStep (n : Nat) (st : Step) (A : Mat) (j : Nat) : Option (Mat × Nat) :=
  match st.narr with
  | Narr.swapRows a1 r1 => some (swap n A (a1 - 1) (r1 - 1), j)
  | Narr.normalize r1 => some (mult n A (r1 - 1) (1 / get A (r1 - 1) j), j + 1)
  | Narr.eliminate r1 f i1 _ => some (add n A (i1 - 1) (r1 - 1) f, j)
  | Narr.skipCol _ => some (A, j + 1)
  | Narr.initial => none
  | Narr.final => none

/-- The snapshot a step carries when the replay has produced `B`: none for a
skip step, the matrix `B` otherwise. -/
def expectedSnap (st : Step) (B : Mat) : Option Mat :=
  match st.narr with
  | Narr.skipCol _ => none
  | _ => some B

/-- Replaying a list of operation steps from the matrix `A`, checking after
each step that the replayed matrix is the snapshot written with that step.
The result is the last matrix and the number of columns dealt with; `none`
when a snapshot differs or a step is not an operation. -/
def replay (n : Nat) : List Step → Mat → Nat → Option (Mat × Nat)
  | [], A, j => some (A, j)
  | st :: rest, A, j =>
    match replayStep n st A j with
    | none => none
    | some (B, k) => if st.snap = expectedSnap st B then replay n rest B k else none

/-- The elementary matrix of `swap(A, a, b)`: the identity with rows `a` and
`b` exchanged. -/
def swapE (m a b : Nat) : Matrix (Fin m) (Fin m) ℚ :=
  fun i l => if l.val = (if i.val = a then b else if i.val = b then a else i.val) then 1 else 0

/-- The elementary matrix of `mult(A, a, c)`: the identity with `c` at `(a, a)`. -/
def multE (m a : Nat) (c : ℚ) : Matrix (Fin m) (Fin m) ℚ :=
  fun i l => if l.val = i.val then (if i.val = a then c else 1) else 0

/-- The elementary matrix of `add(A, a, b, c)`: the identity plus `c` at `(a, b)`. -/
def addE (m a b : Nat) (c : ℚ) : Matrix (Fin m) (Fin m) ℚ :=
  fun i l => (if l.val = i.val then 1 else 0) + (if i.val = a ∧ l.val = b then c else 0)

/-- `B` is row-equivalent to `A`: `B = E * A` for an invertible `m x m` matrix `E`. -/
def RowEquiv (m n : Nat) (A B : Mat) : Prop :=
  ∃ E E' : Matrix (Fin m) (Fin m) ℚ, E' * E = 1 ∧ E * E' = 1 ∧
    E * toMatrix m n A = toMatrix m n B

/-! ## Entries that can overflow -/

/-- A value of type `double`, as far as overflow is concerned: a finite
number, an infinity, or NaN.  Finite numbers are kept exact: rounding,
underflow and the sign of zero are not modelled. -/
inductive FV
  | fin (q : ℚ)
  | pinf
  | ninf
  | nan
  deriving DecidableEq

/-- The result of an operation whose exact value is `q`: a value of magnitude
`2^1024` or more is beyond the range of `double` and overflows to the
infinity of its sign. -/
def FV.ofRat (q : ℚ) : FV :=
  if q ≥ 2 ^ 1024 then FV.pinf else if q ≤ -(2 ^ 1024) then FV.ninf else FV.fin q

/-- Unary minus. -/
def FV.neg : FV → FV
  | FV.fin a => FV.fin (-a)
  | FV.pinf => FV.ninf
  | FV.ninf => FV.pinf
  | FV.nan => FV.nan

/-- Multiplication: NaN propagates, infinity times zero is NaN. -/
def FV.mul : FV → FV → FV
  | FV.nan, _ => FV.nan
  | _, FV.nan => FV.nan
  | FV.fin a, FV.fin b => FV.ofRat (a * b)
  | FV.fin a, FV.pinf => if a = 0 then FV.nan else if a > 0 then FV.pinf else FV.ninf
  | FV.fin a, FV.ninf => if a = 0 then FV.nan else if a > 0 then FV.ninf else FV.pinf
  | FV.pinf, FV.fin b => if b = 0 then FV.nan else if b > 0 then FV.pinf else FV.ninf
  | FV.ninf, FV.fin b => if b = 0 then FV.nan else if b > 0 then FV.ninf else FV.pinf
  | FV.pinf, FV.pinf => FV.pinf
  | FV.pinf, FV.ninf => FV.ninf
  | FV.ninf, FV.pinf => FV.ninf
  | FV.ninf, FV.ninf => FV.pinf

/-- Addition: NaN propagates, infinity minus infinity is NaN. -/
def FV.add : FV → FV → FV
  | FV.nan, _ => FV.nan
  | _, FV.nan => FV.nan
  | FV.fin a, FV.fin b => FV.ofRat (a + b)
  | FV.fin _, FV.pinf => FV.pinf
  | FV.fin _, FV.ninf => FV.ninf
  | FV.pinf, FV.fin _ => FV.pinf
  | FV.ninf, FV.fin _ => FV.ninf
  | FV.pinf, FV.pinf => FV.pinf
  | FV.pinf, FV.ninf => FV.nan
  | FV.ninf, FV.pinf => FV.nan
  | FV.ninf, FV.ninf => FV.ninf

/-- The division `1.0 / d`: the reciprocal of an infinity is zero, of zero an
infinity. -/
def FV.recip : FV → FV
  | FV.fin a => if a = 0 then FV.pinf else FV.ofRat (1 / a)
  | FV.pinf => FV.fin 0
  | FV.ninf => FV.fin 0
  | FV.nan => FV.nan

/-- The test `fabs(x) > EPSILON`: true for an infinity, false for NaN. -/
def FV.absGtEps : FV → Bool
  | FV.fin a => decide (|a| > EPSILON)
  | FV.pinf => true
  | FV.ninf => true
  | FV.nan => false

namespace Fp

/-- The matrix `double A[m][n]` with entries that can overflow. -/
abbrev Mat := List (List FV)

/-- The read `A[i][k]`. -/
def get (A : Mat) (i k : Nat) : FV := (A.getD i []).getD k (FV.fin 0)

/-- The write `A[i][k] = v`. -/
def set (A : Mat) (i k : Nat) (v : FV) : Mat := List.set A i ((A.getD i []).set k v)

/-- Body of the loop of `swap`. -/
def swapCell (a b : Nat) (A : Mat) (i : Nat) : Mat :=
  let temp := get A a i
  let A1 := set A a i (get A b i)
  set A1 b i temp

/-- `void swap(double A[m][n], int a, int b)`. -/
def swap (n : Nat) (A : Mat) (a b : Nat) : Mat :=
  (List.range n).foldl (swapCell a b) A

/-- `void mult(double A[m][n], int a, double c)`: `A[a][i] *= c`. -/
def mult (n : Nat) (A : Mat) (a : Nat) (c : FV) : Mat :=
  (List.range n).foldl (fun A i => set A a i ((get A a i).mul c)) A

/-- `void add(double A[m][n], int a, int b, double c)`: `A[a][i] += c * A[b][i]`. -/
def add (n : Nat) (A : Mat) (a b : Nat) (c : FV) : Mat :=
  (List.range n).foldl (fun A i => set A a i ((get A a i).add (c.mul (get A b i)))) A

/-- The pivot search `for (int a = anchor; a < m; a++) if (fabs(A[a][j]) > EPSILON) ...`;
`fuel` is `m - a`. -/
def findPivot (A : Mat) (j : Nat) : Nat → Nat → Option Nat
  | 0, _ => none
  | fuel + 1, a => if (get A a j).absGtEps then some a else findPivot A j fuel (a + 1)

/-- Body of the elimination loop: `if (i != anchor) add(A, i, anchor, -A[i][j]);`. -/
def elimRow (n j anchor : Nat) (A : Mat) (i : Nat) : Mat :=
  if i ≠ anchor then add n A i anchor (get A i j).neg else A

/-- Body of the column loop of `rref` on the matrix and the anchor; the
Boolean is `true` when the iteration ends with `break`. -/
def colStep (m n j : Nat) (s : Mat × Nat) : (Mat × Nat) × Bool :=
  match findPivot s.1 j (m - s.2) s.2 with
  | none => (s, false)
  | some a =>
    let A1 := swap n s.1 a s.2
    let A2 := mult n A1 s.2 (get A1 s.2 j).recip
    let A3 := (List.range m).foldl (elimRow n j s.2) A2
    ((A3, s.2 + 1), decide (s.2 + 1 > m))

/-- The column loop `for (int j = 0; j < n; j++)`; `fuel` is `n - j`. -/
def colLoop (m n : Nat) : Nat → Nat → Mat × Nat → Mat × Nat
  | 0, _, s => s
  | fuel + 1, j, s =>
    match colStep m n j s with
    | (s1, true) => s1
    | (s1, false) => colLoop m n fuel (j + 1) s1

/-- `void rref(double A[m][n])`: the matrix it leaves in `A`. -/
def rref (m n : Nat) (A : Mat) : Mat :=
  (colLoop m n n 0 (A, 0)).1

/-- The matrix with the same entries, as `double`s. -/
def ofExact (A : GJE.Mat) : Mat := A.map (fun row => row.map FV.fin)

end Fp

/-! # Theorems -/

theorem getD_set_list {α : Type} (r : List α) (k : Nat) (v d : α) (k2 : Nat) :
    (r.set k v).getD k2 d = if k2 = k ∧ k < r.length then v else r.getD k2 d := by
  simp only [List.getD_eq_getElem?_getD, List.getElem?_set]
  by_cases h : k = k2
  · subst h
    by_cases h2 : k < r.length
    · simp [h2]
    · have h3 : r[k]? = none := List.getElem?_eq_none (by omega)
      simp [h2, h3]
  · have : ¬ k2 = k := fun e => h e.symm
    simp [h, this]

theorem row_length {m n : Nat} {A : Mat} (h : WF m n A) {i : Nat} (hi : i < m) :
    (A.getD i []).length = n := by
  obtain ⟨hl, hr⟩ := h
  subst hl
  rw [List.getD_eq_getElem _ _ hi]; exact hr _ (List.getElem_mem _)

theorem get_set {m n : Nat} {A : Mat} (h : WF m n A) {i k : Nat} (hi : i < m) (hk : k < n)
    (v : ℚ) (i2 k2 : Nat) :
    get (set A i k v) i2 k2 = if i2 = i ∧ k2 = k then v else get A i2 k2 := by
  have hrow := row_length h hi
  have hl : i < A.length := by rw [h.1]; exact hi
  unfold get set
  rw [getD_set_list]
  by_cases h1 : i2 = i
  · subst h1
    simp only [hl, and_self, if_true, true_and]
    rw [getD_set_list, hrow]
    simp [hk]
  · simp [h1]

theorem get_of_not_lt {m n : Nat} {A : Mat} (h : WF m n A) {i k : Nat} (hik : ¬ (i < m ∧ k < n)) :
    get A i k = 0 := by
  unfold get
  by_cases hi : i < m
  · have hrow := row_length h hi
    rw [List.getD_eq_default (A.getD i []) 0 (by omega)]
  · rw [List.getD_eq_default A [] (by rw [h.1]; omega)]; rfl

theorem Mat_ext {m n : Nat} {A B : Mat} (hA : WF m n A) (hB : WF m n B)
    (h : ∀ i < m, ∀ k < n, get A i k = get B i k) : A = B := by
  obtain ⟨hl, hr⟩ := hA
  obtain ⟨hl2, hr2⟩ := hB
  subst hl
  apply List.ext_getElem hl2.symm
  intro i h1 h2
  have e1 : A[i].length = n := hr _ (List.getElem_mem _)
  have e2 : B[i].length = n := hr2 _ (List.getElem_mem _)
  apply List.ext_getElem (by omega)
  intro k h3 h4
  have := h i h1 k (by omega)
  unfold get at this
  rw [List.getD_eq_getElem _ _ h1, List.getD_eq_getElem _ _ h2,
    List.getD_eq_getElem _ _ h3, List.getD_eq_getElem _ _ h4] at this
  exact this

/-! ## The row operations, cell by cell -/

theorem WF_set {m n : Nat} {A : Mat} (h : WF m n A) (i k : Nat) (v : ℚ) :
    WF m n (set A i k v) := by
  obtain ⟨hl, hr⟩ := h
  refine ⟨by simp [set, hl], ?_⟩
  intro row hrow
  by_cases hi : i < A.length
  · rcases List.mem_or_eq_of_mem_set hrow with h1 | h1
    · exact hr row h1
    · subst h1
      rw [List.length_set, List.getD_eq_getElem _ _ hi]
      exact hr _ (List.getElem_mem _)
  · unfold set at hrow
    rw [List.set_eq_of_length_le (by omega)] at hrow
    exact hr row hrow

/-- A loop over the columns `0 .. t-1` whose body rewrites column `i0` only,
as a function `G` of that column, rewrites every column below `t` by `G`. -/
theorem foldl_cells {m n : Nat} (f : Mat → Nat → Mat) (G : (Nat → ℚ) → Nat → ℚ)
    (hf : ∀ A i0, WF m n A → i0 < n → WF m n (f A i0) ∧
      ∀ i k, get (f A i0) i k = if k = i0 then G (fun r => get A r k) i else get A i k)
    (A : Mat) (hA : WF m n A) :
    ∀ t, t ≤ n → WF m n ((List.range t).foldl f A) ∧
      ∀ i k, get ((List.range t).foldl f A) i k
        = if k < t then G (fun r => get A r k) i else get A i k := by
  intro t
  induction t with
  | zero => intro _; exact ⟨hA, fun i k => by simp⟩
  | succ t ih =>
    intro ht
    obtain ⟨hw, hg⟩ := ih (by omega)
    rw [List.range_succ, List.foldl_append]
    simp only [List.foldl_cons, List.foldl_nil]
    obtain ⟨hw2, hg2⟩ := hf _ t hw (by omega)
    refine ⟨hw2, fun i k => ?_⟩
    rw [hg2]
    by_cases hk : k = t
    · subst hk
      have : (fun r => get ((List.range k).foldl f A) r k) = fun r => get A r k := by
        funext r; rw [hg]; simp
      simp [this]
    · rw [if_neg hk, hg]
      by_cases h2 : k < t
      · simp [h2, Nat.lt_succ_of_lt h2]
      · have : ¬ k < t + 1 := by omega
        simp [h2, this]

theorem swapCell_spec {m n : Nat} {a b : Nat} (ha : a < m) (hb : b < m) (A : Mat) (i0 : Nat)
    (hA : WF m n A) (hi0 : i0 < n) :
    WF m n (swapCell a b A i0) ∧ ∀ i k, get (swapCell a b A i0) i k
      = if k = i0 then
          swapCol a b (fun r => get A r k) i
        else get A i k := by
  refine ⟨WF_set (WF_set hA _ _ _) _ _ _, fun i k => ?_⟩
  unfold swapCell swapCol
  simp only
  rw [get_set (WF_set hA _ _ _) hb hi0, get_set hA ha hi0]
  by_cases hk : k = i0
  · subst hk
    by_cases h1 : i = a
    · subst h1
      by_cases h2 : i = b
      · subst h2; simp
      · simp [h2]
    · by_cases h2 : i = b
      · subst h2; simp [h1]
      · simp [h1, h2]
  · simp [hk]

theorem multCell_spec {m n : Nat} {a : Nat} (ha : a < m) (c : ℚ) (A : Mat) (i0 : Nat)
    (hA : WF m n A) (hi0 : i0 < n) :
    WF m n (multCell a c A i0) ∧ ∀ i k, get (multCell a c A i0) i k
      = if k = i0 then
          multCol a c (fun r => get A r k) i
        else get A i k := by
  refine ⟨WF_set hA _ _ _, fun i k => ?_⟩
  unfold multCell multCol
  rw [get_set hA ha hi0]
  by_cases hk : k = i0
  · subst hk
    by_cases h1 : i = a
    · subst h1; simp
    · simp [h1]
  · simp [hk]

theorem addCell_spec {m n : Nat} {a : Nat} (ha : a < m) (b : Nat) (c : ℚ) (A : Mat) (i0 : Nat)
    (hA : WF m n A) (hi0 : i0 < n) :
    WF m n (addCell a b c A i0) ∧ ∀ i k, get (addCell a b c A i0) i k
      = if k = i0 then
          addCol a b c (fun r => get A r k) i
        else get A i k := by
  refine ⟨WF_set hA _ _ _, fun i k => ?_⟩
  unfold addCell addCol
  rw [get_set hA ha hi0]
  by_cases hk : k = i0
  · subst hk
    by_cases h1 : i = a
    · subst h1; simp
    · simp [h1]
  · simp [hk]

theorem WF_swap {m n : Nat} {A : Mat} (hA : WF m n A) {a b : Nat} (ha : a < m) (hb : b < m) :
    WF m n (swap n A a b) :=
  (foldl_cells _ (swapCol a b) (swapCell_spec ha hb) A hA n (le_refl n)).1

theorem get_swap {m n : Nat} {A : Mat} (hA : WF m n A) {a b : Nat} (ha : a < m) (hb : b < m)
    (i k : Nat) :
    get (swap n A a b) i k
      = if i = a then get A b k else if i = b then get A a k else get A i k := by
  have h := (foldl_cells _ (swapCol a b) (swapCell_spec ha hb) A hA n (le_refl n)).2 i k
  unfold swap
  rw [h]
  unfold swapCol
  by_cases hk : k < n
  · simp [hk]
  · have z : ∀ r, get A r k = 0 := fun r => get_of_not_lt hA (by omega)
    simp [hk, z]

theorem WF_mult {m n : Nat} {A : Mat} (hA : WF m n A) {a : Nat} (ha : a < m) (c : ℚ) :
    WF m n (mult n A a c) :=
  (foldl_cells _ (multCol a c) (multCell_spec ha c) A hA n (le_refl n)).1

theorem get_mult {m n : Nat} {A : Mat} (hA : WF m n A) {a : Nat} (ha : a < m) (c : ℚ)
    (i k : Nat) :
    get (mult n A a c) i k = if i = a then get A a k * c else get A i k := by
  have h := (foldl_cells _ (multCol a c) (multCell_spec ha c) A hA n (le_refl n)).2 i k
  unfold mult
  rw [h]
  unfold multCol
  by_cases hk : k < n
  · simp [hk]
  · have z : ∀ r, get A r k = 0 := fun r => get_of_not_lt hA (by omega)
    simp [hk, z]

theorem WF_add {m n : Nat} {A : Mat} (hA : WF m n A) {a : Nat} (ha : a < m) (b : Nat) (c : ℚ) :
    WF m n (add n A a b c) :=
  (foldl_cells _ (addCol a b c) (addCell_spec ha b c) A hA n (le_refl n)).1

theorem get_add {m n : Nat} {A : Mat} (hA : WF m n A) {a : Nat} (ha : a < m) (b : Nat) (c : ℚ)
    (i k : Nat) :
    get (add n A a b c) i k = if i = a then get A a k + c * get A b k else get A i k := by
  have h := (foldl_cells _ (addCol a b c) (addCell_spec ha b c) A hA n (le_refl n)).2 i k
  unfold add
  rw [h]
  unfold addCol
  by_cases hk : k < n
  · simp [hk]
  · have z : ∀ r, get A r k = 0 := fun r => get_of_not_lt hA (by omega)
    simp [hk, z]

/-! ## The matrix of `main` -/

theorem rref_mainA :
    (rref 4 4 mainA).A = [[1, 0, 0, -5], [0, 1, 0, -4], [0, 0, 1, -2], [0, 0, 0, 0]] := by
  decide!

theorem pivots_mainA : pivots (rref 4 4 mainA) = [(0, 0), (1, 1), (2, 2)] := by
  decide!

theorem det_mainA : (toMatrix 4 4 mainA).det = 0 := by
  apply Matrix.exists_mulVec_eq_zero_iff.mp
  refine ⟨![5, 4, 2, 1], ?_, ?_⟩
  · intro h
    have := congrFun h 3
    simp at this
  · funext i
    fin_cases i <;>
      simp [toMatrix, Matrix.mulVec, Matrix.dotProduct, Fin.sum_univ_four, get, mainA,
        show ((3 : Fin 4) : ℕ) = 3 from rfl] <;>
      norm_num

/-- C3. For the matrix hard-coded in `main`, read as an augmented system
(coefficient columns 0..2, right-hand side column 3): `rref` pivots every
coefficient column, and the last column of the returned matrix, taken at the
pivoted rows, solves each of the four original equations exactly. -/
theorem C3_main_solution_column :
    (pivots (rref 4 4 mainA)).map Prod.snd = [0, 1, 2] ∧
    ∀ i < 4, ((pivots (rref 4 4 mainA)).map
        (fun p => get mainA i p.2 * get (rref 4 4 mainA).A p.1 3)).sum = get mainA i 3 := by
  decide!

/-- C4, as stated, fails: it is not the case that the matrix of `main` has a
non-zero determinant, that all four rows receive a pivot and that the result
has no all-zero row. -/
theorem C4_main_not_nonsingular :
    ¬ ((toMatrix 4 4 mainA).det ≠ 0 ∧ (pivots (rref 4 4 mainA)).length = 4 ∧
        ∀ i < 4, ∃ k < 4, get (rref 4 4 mainA).A i k ≠ 0) :=
  fun h => h.1 det_mainA

/-- C4, amended. The matrix of `main` is singular; `rref` places exactly three
pivots, at (0,0), (1,1), (2,2), skips the fourth column, and returns the
3 x 3 identity augmented with the column (-5, -4, -2), above an all-zero
fourth row. -/
theorem C4_main_reduced :
    (toMatrix 4 4 mainA).det = 0 ∧
    pivots (rref 4 4 mainA) = [(0, 0), (1, 1), (2, 2)] ∧
    (⟨Narr.skipCol 4, none⟩ : Step) ∈ (rref 4 4 mainA).steps ∧
    (rref 4 4 mainA).A = [[1, 0, 0, -5], [0, 1, 0, -4], [0, 0, 1, -2], [0, 0, 0, 0]] :=
  ⟨det_mainA, pivots_mainA, by decide!, rref_mainA⟩

/-! ## The pivot search -/

theorem EPSILON_pos : (0 : ℚ) < EPSILON := by unfold EPSILON; norm_num

theorem findPivot_none {A : Mat} {j : Nat} :
    ∀ (fuel a : Nat) (evs rd : List Ev), findPivot A j fuel a evs = (none, rd) →
      ∀ i, a ≤ i → i < a + fuel → ¬ |get A i j| > EPSILON := by
  intro fuel
  induction fuel with
  | zero => intro a evs rd _ i h1 h2; omega
  | succ fuel ih =>
    intro a evs rd h i h1 h2
    unfold findPivot at h
    by_cases hc : |get A a j| > EPSILON
    · rw [if_pos hc] at h; cases h
    · rw [if_neg hc] at h
      by_cases hi : i = a
      · subst hi; exact hc
      · exact ih (a + 1) _ rd h i (by omega) (by omega)

theorem findPivot_some {A : Mat} {j : Nat} :
    ∀ (fuel a : Nat) (evs rd : List Ev) (p : Nat), findPivot A j fuel a evs = (some p, rd) →
      a ≤ p ∧ p < a + fuel ∧ |get A p j| > EPSILON ∧
        ∀ i, a ≤ i → i < p → ¬ |get A i j| > EPSILON := by
  intro fuel
  induction fuel with
  | zero => intro a evs rd p h; unfold findPivot at h; cases h
  | succ fuel ih =>
    intro a evs rd p h
    unfold findPivot at h
    by_cases hc : |get A a j| > EPSILON
    · rw [if_pos hc] at h
      cases h
      exact ⟨le_refl _, by omega, hc, fun i h1 h2 => by omega⟩
    · rw [if_neg hc] at h
      obtain ⟨h1, h2, h3, h4⟩ := ih (a + 1) _ rd p h
      refine ⟨by omega, by omega, h3, fun i hi1 hi2 => ?_⟩
      by_cases hi : i = a
      · subst hi; exact hc
      · exact h4 i (by omega) hi2

/-- The cells read by the pivot search are in column `j`, in rows `a .. a + fuel - 1`. -/
theorem findPivot_reads {A : Mat} {j : Nat} :
    ∀ (fuel a : Nat) (evs : List Ev),
      ∃ cnt, cnt ≤ fuel ∧
        (findPivot A j fuel a evs).2 = evs ++ (List.range' a cnt).map (fun i => Ev.read i j) := by
  intro fuel
  induction fuel with
  | zero => intro a evs; exact ⟨0, le_refl _, by simp [findPivot]⟩
  | succ fuel ih =>
    intro a evs
    unfold findPivot
    by_cases hc : |get A a j| > EPSILON
    · rw [if_pos hc]
      exact ⟨1, by omega, by simp⟩
    · rw [if_neg hc]
      obtain ⟨cnt, h1, h2⟩ := ih (a + 1) (evs ++ [Ev.read a j])
      refine ⟨cnt + 1, by omega, ?_⟩
      rw [h2, List.range'_succ]
      simp

/-! ## The elimination loop -/

theorem elim_foldl (n j r : Nat) (it0 : Iter) (t : Nat) :
    (List.range t).foldl (elimRow n j r) it0 =
      { A := elimMat n j r it0.A t
        out := it0.out ++ ((List.range t).filter (fun i => decide (i ≠ r))).map
                (elimStep n j r it0.A)
        evs := it0.evs ++ (((List.range t).filter (fun i => decide (i ≠ r))).map
                (elimEvs n j r it0.A)).flatten } := by
  induction t with
  | zero => simp [elimMat]
  | succ t ih =>
    have hA : ∀ it1 : Iter, (elimRow n j r it1 t).A =
        if t ≠ r then add n it1.A t r (-get it1.A t j) else it1.A := by
      intro it1; unfold elimRow; by_cases h : t ≠ r <;> simp [h]
    have e1 : elimMat n j r it0.A (t + 1) =
        if t ≠ r then add n (elimMat n j r it0.A t) t r (-get (elimMat n j r it0.A t) t j)
        else elimMat n j r it0.A t := by
      unfold elimMat
      rw [List.range_succ, List.foldl_append]
      simp only [List.foldl_cons, List.foldl_nil]
      rw [hA]
    rw [List.range_succ, List.foldl_append, ih]
    simp only [List.foldl_cons, List.foldl_nil, List.filter_append, List.map_append,
      List.flatten_append]
    by_cases h : t ≠ r
    · have hd : decide (t ≠ r) = true := by simp [h]
      rw [e1, if_pos h]
      unfold elimRow
      simp only [if_pos h, List.filter_cons, hd, List.filter_nil, List.map_cons, List.map_nil,
        List.flatten_cons, List.flatten_nil, List.append_nil, if_true]
      simp only [elimStep, elimEvs, e1, if_pos h, List.append_assoc]
    · have hd : decide (t ≠ r) = false := by simp [h]
      rw [e1, if_neg h]
      have hr : t = r := by omega
      unfold elimRow
      simp [hr]

theorem elimMat_succ (n j r : Nat) (A : Mat) (t : Nat) :
    elimMat n j r A (t + 1) =
      if t ≠ r then add n (elimMat n j r A t) t r (-get (elimMat n j r A t) t j)
      else elimMat n j r A t := by
  unfold elimMat
  rw [List.range_succ, List.foldl_append]
  simp only [List.foldl_cons, List.foldl_nil]
  unfold elimRow
  by_cases h : t ≠ r <;> simp [h]

theorem elimMat_spec {m n : Nat} (j : Nat) {r : Nat} {A : Mat} (hA : WF m n A) :
    ∀ t, t ≤ m → WF m n (elimMat n j r A t) ∧
      ∀ i k, get (elimMat n j r A t) i k =
        if i < t ∧ i ≠ r then get A i k - get A i j * get A r k else get A i k := by
  intro t
  induction t with
  | zero => intro _; exact ⟨by simpa [elimMat] using hA, fun i k => by simp [elimMat]⟩
  | succ t ih =>
    intro ht
    obtain ⟨hw, hg⟩ := ih (by omega)
    rw [elimMat_succ]
    by_cases h : t ≠ r
    · rw [if_pos h]
      have ht' : t < m := by omega
      refine ⟨WF_add hw ht' _ _, fun i k => ?_⟩
      rw [get_add hw ht']
      by_cases hi : i = t
      · subst hi
        have h1 : ¬ (i < i ∧ i ≠ r) := by omega
        have h2 : ¬ (r < i ∧ r ≠ r) := by omega
        have h3 : (i < i + 1 ∧ i ≠ r) := ⟨by omega, h⟩
        simp only [hg, if_neg h1, if_neg h2, if_pos h3, if_true]
        ring
      · rw [if_neg hi, hg]
        by_cases h4 : i < t ∧ i ≠ r
        · have h5 : i < t + 1 ∧ i ≠ r := ⟨by omega, h4.2⟩
          rw [if_pos h4, if_pos h5]
        · have h5 : ¬ (i < t + 1 ∧ i ≠ r) := by omega
          rw [if_neg h4, if_neg h5]
    · rw [if_neg h]
      have hr : t = r := by omega
      refine ⟨hw, fun i k => ?_⟩
      rw [hg]
      by_cases h4 : i < t ∧ i ≠ r
      · have h5 : i < t + 1 ∧ i ≠ r := ⟨by omega, h4.2⟩
        rw [if_pos h4, if_pos h5]
      · have h5 : ¬ (i < t + 1 ∧ i ≠ r) := by omega
        rw [if_neg h4, if_neg h5]

/-! ## One iteration of the column loop -/

theorem pivotIter_eq (m n j : Nat) (A : Mat) (r a : Nat) (rd : List Ev) :
    pivotIter m n j A r a rd =
      { A := elimMat n j r (normMat n j A r a) m
        out := ((if r ≠ a then [⟨Narr.swapRows (a + 1) (r + 1), some (swap n A a r)⟩] else []) ++
                [⟨Narr.normalize (r + 1), some (normMat n j A r a)⟩]) ++
               ((List.range m).filter (fun i => decide (i ≠ r))).map
                 (elimStep n j r (normMat n j A r a))
        evs := (rd ++ [Ev.swapCall a r, Ev.read r j, Ev.recip (get (swap n A a r) r j),
                       Ev.multCall r (1 / get (swap n A a r) r j)]) ++
               (((List.range m).filter (fun i => decide (i ≠ r))).map
                 (elimEvs n j r (normMat n j A r a))).flatten } := by
  unfold pivotIter elimLoop
  simp only
  rw [elim_foldl]
  rfl

theorem WF_normMat {m n : Nat} {A : Mat} (hA : WF m n A) (j : Nat) {r p : Nat}
    (hr : r < m) (hp : p < m) : WF m n (normMat n j A r p) :=
  WF_mult (WF_swap hA hp hr) hr _

/-- Entries of the matrix after swap and normalization: row `r` is row `p` of
`A` divided by the pivot, row `p` is row `r` of `A`, the others are unchanged. -/
theorem get_normMat {m n : Nat} {A : Mat} (hA : WF m n A) (j : Nat) {r p : Nat}
    (hr : r < m) (hp : p < m) (i k : Nat) :
    get (normMat n j A r p) i k =
      if i = r then get A p k * (1 / get A p j)
      else if i = p then get A r k else get A i k := by
  unfold normMat
  rw [get_mult (WF_swap hA hp hr) hr, get_swap hA hp hr, get_swap hA hp hr, get_swap hA hp hr]
  by_cases h1 : i = r
  · subst h1
    by_cases h2 : i = p
    · subst h2; simp
    · simp [h2]
  · simp [h1]

theorem WF_pivotIter {m n : Nat} {A : Mat} (hA : WF m n A) (j : Nat) {r p : Nat}
    (hr : r < m) (hp : p < m) (rd : List Ev) : WF m n (pivotIter m n j A r p rd).A := by
  rw [pivotIter_eq]
  exact (elimMat_spec j (WF_normMat hA j hr hp) m (le_refl m)).1

/-- Entries of the matrix at the end of an iteration that found its pivot in
row `p`, in terms of the matrix after the normalization. -/
theorem get_pivotIter {m n : Nat} {A : Mat} (hA : WF m n A) (j : Nat) {r p : Nat}
    (hr : r < m) (hp : p < m) (rd : List Ev) (i k : Nat) :
    get (pivotIter m n j A r p rd).A i k =
      if i < m ∧ i ≠ r then
        get (normMat n j A r p) i k - get (normMat n j A r p) i j * get (normMat n j A r p) r k
      else get (normMat n j A r p) i k := by
  rw [pivotIter_eq]
  exact (elimMat_spec j (WF_normMat hA j hr hp) m (le_refl m)).2 i k

/-- The two ways an iteration of the column loop can go. -/
theorem colStep_cases (m n j : Nat) (s : State) (hr : s.anchor ≤ m) :
    (∃ rd, findPivot s.A j (m - s.anchor) s.anchor [] = (none, rd) ∧
      (∀ i, s.anchor ≤ i → i < m → ¬ |get s.A i j| > EPSILON) ∧
      colStep m n j s =
        ({ A := s.A
           anchor := s.anchor
           steps := s.steps ++ [⟨Narr.skipCol (j + 1), none⟩]
           cols := s.cols ++ [⟨j, s.anchor, s.A, none, [⟨Narr.skipCol (j + 1), none⟩],
                               s.anchor, s.A⟩]
           evs := s.evs ++ rd }, false)) ∨
    (∃ p rd, findPivot s.A j (m - s.anchor) s.anchor [] = (some p, rd) ∧
      s.anchor ≤ p ∧ p < m ∧ |get s.A p j| > EPSILON ∧
      (∀ i, s.anchor ≤ i → i < p → ¬ |get s.A i j| > EPSILON) ∧
      colStep m n j s =
        ({ A := (pivotIter m n j s.A s.anchor p rd).A
           anchor := s.anchor + 1
           steps := s.steps ++ (pivotIter m n j s.A s.anchor p rd).out
           cols := s.cols ++ [⟨j, s.anchor, s.A, some p, (pivotIter m n j s.A s.anchor p rd).out,
                               s.anchor + 1, (pivotIter m n j s.A s.anchor p rd).A⟩]
           evs := s.evs ++ (pivotIter m n j s.A s.anchor p rd).evs }, false)) := by
  rcases hfp : findPivot s.A j (m - s.anchor) s.anchor [] with ⟨_ | p, rd⟩
  · left
    refine ⟨rd, rfl, fun i h1 h2 => findPivot_none _ _ _ _ hfp i h1 (by omega), ?_⟩
    unfold colStep
    rw [hfp]
  · right
    obtain ⟨h1, h2, h3, h4⟩ := findPivot_some _ _ _ _ _ hfp
    refine ⟨p, rd, rfl, h1, by omega, h3, h4, ?_⟩
    unfold colStep
    rw [hfp]
    have : decide (s.anchor + 1 > m) = false := by
      simp only [decide_eq_false_iff_not]; omega
    simp only [this]

/-- Induction over the column loop: an invariant that holds before column `j`
and is preserved by every iteration holds at the end.  Along the way the
matrix stays `m x n` and `anchor <= m`, so no iteration ends with `break`. -/
theorem colLoop_induct (m n : Nat) (Inv : Nat → State → Prop)
    (hstep : ∀ j s, j < n → s.anchor ≤ m → WF m n s.A → Inv j s →
      Inv (j + 1) (colStep m n j s).1) :
    ∀ fuel j s, j + fuel = n → s.anchor ≤ m → WF m n s.A → Inv j s →
      (colLoop m n fuel j s).anchor ≤ m ∧ WF m n (colLoop m n fuel j s).A ∧
        Inv n (colLoop m n fuel j s) := by
  intro fuel
  induction fuel with
  | zero =>
    intro j s hj ha hw hI
    have : j = n := by omega
    subst this
    exact ⟨ha, hw, hI⟩
  | succ fuel ih =>
    intro j s hj ha hw hI
    have hb : (colStep m n j s).2 = false ∧ (colStep m n j s).1.anchor ≤ m ∧
        WF m n (colStep m n j s).1.A := by
      rcases colStep_cases m n j s ha with ⟨rd, _, _, h⟩ | ⟨p, rd, _, h1, hp, _, _, h⟩
      · rw [h]; exact ⟨rfl, ha, hw⟩
      · rw [h]
        exact ⟨rfl, by show s.anchor + 1 ≤ m; omega, WF_pivotIter hw j (by omega) hp rd⟩
    have hI2 := hstep j s (by omega) ha hw hI
    unfold colLoop
    rcases hcs : colStep m n j s with ⟨s1, b⟩
    rw [hcs] at hb hI2
    simp only at hb hI2
    rw [hb.1]
    exact ih (j + 1) s1 (by omega) hb.2.1 hb.2.2 hI2

/-- An invariant of the column loop that holds initially holds for the state
`rref` ends in (up to the final step, which `rref` appends to the trace). -/
theorem rref_induct (m n : Nat) (A : Mat) (hA : WF m n A) (Inv : Nat → State → Prop)
    (h0 : Inv 0 (initState A))
    (hstep : ∀ j s, j < n → s.anchor ≤ m → WF m n s.A → Inv j s →
      Inv (j + 1) (colStep m n j s).1) :
    (rref m n A).anchor ≤ m ∧ WF m n (rref m n A).A ∧
      Inv n (colLoop m n n 0 (initState A)) :=
  colLoop_induct m n Inv hstep n 0 (initState A) (by omega) (Nat.zero_le _) hA h0

theorem rref_A (m n : Nat) (A : Mat) : (rref m n A).A = (colLoop m n n 0 (initState A)).A := rfl

theorem rref_anchor (m n : Nat) (A : Mat) :
    (rref m n A).anchor = (colLoop m n n 0 (initState A)).anchor := rfl

theorem rref_cols (m n : Nat) (A : Mat) :
    (rref m n A).cols = (colLoop m n n 0 (initState A)).cols := rfl

theorem rref_evs (m n : Nat) (A : Mat) :
    (rref m n A).evs = (colLoop m n n 0 (initState A)).evs := rfl

theorem rref_steps (m n : Nat) (A : Mat) :
    (rref m n A).steps = (colLoop m n n 0 (initState A)).steps ++
      [⟨Narr.final, some (rref m n A).A⟩] := rfl

/-! ## Where the pivots are -/

theorem pivots_snoc (s : State) (cols : List ColRec) (rec : ColRec) (A : Mat) (a : Nat)
    (st : List Step) (ev : List Ev) (h : cols = s.cols ++ [rec]) :
    pivots { A := A, anchor := a, steps := st, cols := cols, evs := ev } =
      pivots s ++ (rec.found.map (fun _ => (rec.anchor, rec.j))).toList := by
  subst h
  unfold pivots
  simp only [List.filterMap_append]
  congr 1

/-- Invariant behind the row-echelon ordering: the pivots are in rows
`0 .. anchor-1`, in this order, in columns below `j`, and rows and columns
increase together. -/
theorem pivots_shape_step (m n : Nat) (j : Nat) (s : State) (ha : s.anchor ≤ m)
    (h : (pivots s).map Prod.fst = List.range s.anchor ∧
      (∀ p ∈ pivots s, p.1 < s.anchor ∧ p.2 < j) ∧
      List.Pairwise (fun p q : Nat × Nat => p.1 < q.1 ∧ p.2 < q.2) (pivots s)) :
    (pivots (colStep m n j s).1).map Prod.fst = List.range (colStep m n j s).1.anchor ∧
      (∀ p ∈ pivots (colStep m n j s).1, p.1 < (colStep m n j s).1.anchor ∧ p.2 < j + 1) ∧
      List.Pairwise (fun p q : Nat × Nat => p.1 < q.1 ∧ p.2 < q.2)
        (pivots (colStep m n j s).1) := by
  obtain ⟨h1, h2, h3⟩ := h
  rcases colStep_cases m n j s ha with ⟨rd, _, _, hc⟩ | ⟨p, rd, _, _, _, _, _, hc⟩
  · rw [hc]
    simp only
    rw [pivots_snoc s _ _ _ _ _ _ rfl]
    simp only [Option.map_none', Option.toList_none, List.append_nil]
    exact ⟨h1, fun p hp => ⟨(h2 p hp).1, by have := (h2 p hp).2; omega⟩, h3⟩
  · rw [hc]
    simp only
    rw [pivots_snoc s _ _ _ _ _ _ rfl]
    simp only [Option.map_some', Option.toList_some]
    refine ⟨?_, ?_, ?_⟩
    · rw [List.map_append, h1, List.range_succ]; rfl
    · intro q hq
      rcases List.mem_append.mp hq with hq | hq
      · have := h2 q hq; omega
      · simp only [List.mem_singleton] at hq
        subst hq; simp
    · rw [List.pairwise_append]
      refine ⟨h3, List.pairwise_singleton _ _, ?_⟩
      intro a ha' b hb
      simp only [List.mem_singleton] at hb
      subst hb
      exact h2 a ha'

theorem pivots_shape (m n : Nat) (A : Mat) (hA : WF m n A) :
    (pivots (rref m n A)).map Prod.fst = List.range (rref m n A).anchor ∧
      (∀ p ∈ pivots (rref m n A), p.1 < (rref m n A).anchor ∧ p.2 < n) ∧
      List.Pairwise (fun p q : Nat × Nat => p.1 < q.1 ∧ p.2 < q.2) (pivots (rref m n A)) := by
  have h := rref_induct m n A hA
    (fun j s => (pivots s).map Prod.fst = List.range s.anchor ∧
      (∀ p ∈ pivots s, p.1 < s.anchor ∧ p.2 < j) ∧
      List.Pairwise (fun p q : Nat × Nat => p.1 < q.1 ∧ p.2 < q.2) (pivots s))
    (by simp [pivots, initState])
    (fun j s _ ha _ hI => pivots_shape_step m n j s ha hI)
  exact h.2.2

theorem pairwise_trichotomy {α : Type} {R : α → α → Prop} {l : List α}
    (h : List.Pairwise R l) {a b : α} (ha : a ∈ l) (hb : b ∈ l) :
    a = b ∨ R a b ∨ R b a := by
  have h2 : List.Pairwise (fun x y => x = y ∨ R x y ∨ R y x) l :=
    h.imp (fun hxy => Or.inr (Or.inl hxy))
  refine List.Pairwise.forall_of_forall (R := fun x y => x = y ∨ R x y ∨ R y x) ?_
    (fun x _ => Or.inl rfl) h2 ha hb
  intro x y hxy
  rcases hxy with h | h | h
  · exact Or.inl h.symm
  · exact Or.inr (Or.inr h)
  · exact Or.inr (Or.inl h)

/-- C6. Row-echelon ordering: the pivots `rref` places, listed in the order it
places them, are in rows `0, 1, 2, ...` consecutively, their columns strictly
increase along the list, and for two pivoted rows `r1 < r2` the pivot column
of `r1` is strictly less than the pivot column of `r2`. -/
theorem C6_row_echelon_ordering (m n : Nat) (A : Mat) (hA : WF m n A) :
    (pivots (rref m n A)).map Prod.fst = List.range (pivots (rref m n A)).length ∧
    List.Pairwise (· < ·) ((pivots (rref m n A)).map Prod.snd) ∧
    ∀ p ∈ pivots (rref m n A), ∀ q ∈ pivots (rref m n A), p.1 < q.1 → p.2 < q.2 := by
  obtain ⟨h1, _, h3⟩ := pivots_shape m n A hA
  refine ⟨?_, ?_, ?_⟩
  · have hl : (pivots (rref m n A)).length = (rref m n A).anchor := by
      have := congrArg List.length h1
      simpa using this
    rw [hl]; exact h1
  · rw [List.pairwise_map]
    exact h3.imp (fun h => h.2)
  · intro p hp q hq hlt
    rcases pairwise_trichotomy h3 hp hq with h | h | h
    · subst h; omega
    · exact h.2
    · omega

/-- The row-echelon ordering on the matrix of `main`. -/
theorem C6_row_echelon_ordering_witness :
    WF 4 4 mainA ∧
    (pivots (rref 4 4 mainA)).map Prod.fst = List.range (pivots (rref 4 4 mainA)).length ∧
    List.Pairwise (· < ·) ((pivots (rref 4 4 mainA)).map Prod.snd) ∧
    ∀ p ∈ pivots (rref 4 4 mainA), ∀ q ∈ pivots (rref 4 4 mainA), p.1 < q.1 → p.2 < q.2 :=
  ⟨by decide, C6_row_echelon_ordering 4 4 mainA (by decide)⟩

/-! ## The pivot columns -/

theorem ne_zero_of_abs_gt {x : ℚ} (h : |x| > EPSILON) : x ≠ 0 := by
  intro hx
  rw [hx, abs_zero] at h
  exact absurd h (not_lt.mpr (le_of_lt EPSILON_pos))

/-- The column of the pivot just placed: 1 in the anchor row, 0 elsewhere. -/
theorem pivotIter_pivot_col {m n : Nat} {A : Mat} (hA : WF m n A) (j : Nat) {r p : Nat}
    (hr : r < m) (hp : p < m) (rd : List Ev) (hd : get A p j ≠ 0) :
    get (pivotIter m n j A r p rd).A r j = 1 ∧
      ∀ i < m, i ≠ r → get (pivotIter m n j A r p rd).A i j = 0 := by
  have hN : get (normMat n j A r p) r j = 1 := by
    rw [get_normMat hA j hr hp, if_pos rfl]
    field_simp
  refine ⟨?_, fun i hi hne => ?_⟩
  · rw [get_pivotIter hA j hr hp, if_neg (by omega), hN]
  · rw [get_pivotIter hA j hr hp, if_pos ⟨hi, hne⟩, hN]
    ring

/-- A column that is zero in the rows `r` and `p` is not changed by an
iteration that swaps these rows, normalizes row `r` and eliminates with it. -/
theorem pivotIter_col_unchanged {m n : Nat} {A : Mat} (hA : WF m n A) (j : Nat) {r p : Nat}
    (hr : r < m) (hp : p < m) (rd : List Ev) (c : Nat)
    (h1 : get A r c = 0) (h2 : get A p c = 0) (i : Nat) :
    get (pivotIter m n j A r p rd).A i c = get A i c := by
  have hN : ∀ i, get (normMat n j A r p) i c = get A i c := by
    intro i
    rw [get_normMat hA j hr hp]
    by_cases e1 : i = r
    · subst e1; simp [h1, h2]
    · by_cases e2 : i = p
      · subst e2; simp [e1, h1, h2]
      · simp [e1, e2]
  rw [get_pivotIter hA j hr hp]
  by_cases e : i < m ∧ i ≠ r
  · rw [if_pos e, hN, hN, h1]; ring
  · rw [if_neg e, hN]

theorem pivot_property_step (m n : Nat) (j : Nat) (s : State) (ha : s.anchor ≤ m)
    (hw : WF m n s.A)
    (h : ∀ p ∈ pivots s, p.1 < s.anchor ∧ get s.A p.1 p.2 = 1 ∧
      ∀ i < m, i ≠ p.1 → get s.A i p.2 = 0) :
    ∀ p ∈ pivots (colStep m n j s).1, p.1 < (colStep m n j s).1.anchor ∧
      get (colStep m n j s).1.A p.1 p.2 = 1 ∧
      ∀ i < m, i ≠ p.1 → get (colStep m n j s).1.A i p.2 = 0 := by
  rcases colStep_cases m n j s ha with ⟨rd, _, _, hc⟩ | ⟨p, rd, _, hp1, hp2, hp3, _, hc⟩
  · rw [hc]
    simp only
    rw [pivots_snoc s _ _ _ _ _ _ rfl]
    simpa using h
  · rw [hc]
    simp only
    rw [pivots_snoc s _ _ _ _ _ _ rfl]
    simp only [Option.map_some', Option.toList_some]
    have hr : s.anchor < m := by omega
    intro q hq
    rcases List.mem_append.mp hq with hq | hq
    · obtain ⟨q1, q2, q3⟩ := h q hq
      have z1 : get s.A s.anchor q.2 = 0 := q3 _ hr (by omega)
      have z2 : get s.A p q.2 = 0 := q3 _ hp2 (by omega)
      refine ⟨by omega, ?_, fun i hi hne => ?_⟩
      · rw [pivotIter_col_unchanged hw j hr hp2 rd q.2 z1 z2]; exact q2
      · rw [pivotIter_col_unchanged hw j hr hp2 rd q.2 z1 z2]; exact q3 i hi hne
    · simp only [List.mem_singleton] at hq
      subst hq
      obtain ⟨e1, e2⟩ := pivotIter_pivot_col hw j hr hp2 rd (ne_zero_of_abs_gt hp3)
      exact ⟨by simp, e1, e2⟩

/-- C1. Pivot property: for every `m x n` matrix and every pivot `rref` placed,
at row `r` in column `c`, the returned matrix has 1 at `(r, c)` and 0 at
`(i, c)` for every other row `i`. -/
theorem C1_pivot_property (m n : Nat) (A : Mat) (hA : WF m n A) :
    ∀ p ∈ pivots (rref m n A),
      get (rref m n A).A p.1 p.2 = 1 ∧
      ∀ i < m, i ≠ p.1 → get (rref m n A).A i p.2 = 0 := by
  have h := rref_induct m n A hA
    (fun _ s => ∀ p ∈ pivots s, p.1 < s.anchor ∧ get s.A p.1 p.2 = 1 ∧
      ∀ i < m, i ≠ p.1 → get s.A i p.2 = 0)
    (by simp [pivots, initState])
    (fun j s _ ha hw hI => pivot_property_step m n j s ha hw hI)
  intro p hp
  exact (h.2.2 p hp).2

/-- The pivot property on the matrix of `main`. -/
theorem C1_pivot_property_witness :
    WF 4 4 mainA ∧ ∀ p ∈ pivots (rref 4 4 mainA),
      get (rref 4 4 mainA).A p.1 p.2 = 1 ∧
      ∀ i < 4, i ≠ p.1 → get (rref 4 4 mainA).A i p.2 = 0 :=
  ⟨by decide, C1_pivot_property 4 4 mainA (by decide)⟩

/-! ## Counting the steps -/

theorem filter_ne_range_length (r : Nat) :
    ∀ m, ((List.range m).filter (fun i => decide (i ≠ r))).length
      = m - (if r < m then 1 else 0) := by
  intro m
  induction m with
  | zero => simp
  | succ m ih =>
    rw [List.range_succ, List.filter_append, List.length_append, ih]
    by_cases h1 : m = r
    · subst h1; simp
    · have hd : decide (m ≠ r) = true := by simp [h1]
      simp only [List.filter_cons, hd, if_true, List.filter_nil, List.length_singleton]
      by_cases h2 : r < m
      · have h3 : r < m + 1 := by omega
        simp only [if_pos h2, if_pos h3]; omega
      · have h3 : ¬ r < m + 1 := by omega
        simp only [if_neg h2, if_neg h3]; omega

theorem pivotIter_out_length (m n j : Nat) (A : Mat) {r : Nat} (p : Nat) (rd : List Ev)
    (hr : r < m) :
    (pivotIter m n j A r p rd).out.length = (if r ≠ p then 1 else 0) + 1 + (m - 1) := by
  rw [pivotIter_eq]
  simp only [List.length_append, List.length_map, filter_ne_range_length, if_pos hr,
    List.length_singleton]
  by_cases h : r ≠ p
  · simp [h]
  · simp [h]

theorem step_count_step (m n : Nat) (j : Nat) (s : State) (ha : s.anchor ≤ m)
    (h : s.steps.length =
      1 + swapCount s + pivotCount s + pivotCount s * (m - 1) + skipCount s) :
    (colStep m n j s).1.steps.length =
      1 + swapCount (colStep m n j s).1 + pivotCount (colStep m n j s).1
        + pivotCount (colStep m n j s).1 * (m - 1) + skipCount (colStep m n j s).1 := by
  rcases colStep_cases m n j s ha with ⟨rd, _, _, hc⟩ | ⟨p, rd, _, hp1, hp2, hp3, _, hc⟩
  · rw [hc]
    simp only [swapCount, pivotCount, skipCount, List.filter_append, List.length_append] at h ⊢
    simp [ColRec.swapped]
    omega
  · rw [hc]
    have hr : s.anchor < m := by omega
    simp only [swapCount, pivotCount, skipCount, List.filter_append, List.length_append,
      pivotIter_out_length m n j s.A p rd hr] at h ⊢
    by_cases e : s.anchor = p
    · subst e
      simp [ColRec.swapped]
      rw [h]; ring
    · have e2 : ¬ p = s.anchor := fun x => e x.symm
      simp [e, e2, ColRec.swapped]
      rw [h]; ring

/-- C5. Step-count law: the number of steps `rref` emits is
`1 + S + P + P * (m - 1) + K + 1`, where `S` counts the pivot searches that
stopped at a row other than the anchor row, `P` the columns in which a pivot
was found and `K` the skipped columns. -/
theorem C5_step_count (m n : Nat) (A : Mat) (hA : WF m n A) :
    (rref m n A).steps.length =
      1 + swapCount (rref m n A) + pivotCount (rref m n A)
        + pivotCount (rref m n A) * (m - 1) + skipCount (rref m n A) + 1 := by
  have h := rref_induct m n A hA
    (fun _ s => s.steps.length =
      1 + swapCount s + pivotCount s + pivotCount s * (m - 1) + skipCount s)
    (by simp [swapCount, pivotCount, skipCount, initState])
    (fun j s _ ha _ hI => step_count_step m n j s ha hI)
  rw [rref_steps, List.length_append, h.2.2]
  rfl

/-- The step-count law on the matrix of `main`. -/
theorem C5_step_count_witness :
    WF 4 4 mainA ∧ (rref 4 4 mainA).steps.length =
      1 + swapCount (rref 4 4 mainA) + pivotCount (rref 4 4 mainA)
        + pivotCount (rref 4 4 mainA) * (4 - 1) + skipCount (rref 4 4 mainA) + 1 :=
  ⟨by decide, C5_step_count 4 4 mainA (by decide)⟩

/-! ## Reads, divisions and calls stay in bounds -/

theorem get_swap_anchor {m n : Nat} {A : Mat} (hA : WF m n A) (j : Nat) {r p : Nat}
    (hr : r < m) (hp : p < m) : get (swap n A p r) r j = get A p j := by
  rw [get_swap hA hp hr]
  by_cases h : r = p
  · subst h; simp
  · simp [h]

theorem findPivot_evs_ok {m n : Nat} (A : Mat) {j : Nat} (hj : j < n) (a : Nat) (ha : a ≤ m) :
    ∀ e ∈ (findPivot A j (m - a) a []).2, Ev.ok m n e := by
  obtain ⟨cnt, h1, h2⟩ := findPivot_reads (A := A) (j := j) (m - a) a []
  rw [h2]
  intro e he
  simp only [List.nil_append, List.mem_map, List.mem_range'_1] at he
  obtain ⟨i, ⟨hi1, hi2⟩, rfl⟩ := he
  exact ⟨by omega, hj⟩

theorem pivotIter_evs_ok {m n : Nat} {A : Mat} (hA : WF m n A) {j : Nat} (hj : j < n)
    {r p : Nat} (hr : r < m) (hp : p < m) (hd : |get A p j| > EPSILON) (rd : List Ev)
    (hrd : ∀ e ∈ rd, Ev.ok m n e) :
    ∀ e ∈ (pivotIter m n j A r p rd).evs, Ev.ok m n e := by
  rw [pivotIter_eq]
  intro e he
  simp only [List.mem_append, List.mem_cons, List.mem_singleton, List.not_mem_nil, or_false,
    List.mem_flatten, List.mem_map, List.mem_filter, List.mem_range] at he
  rcases he with (he | he | he | he | he) | ⟨l, ⟨i, ⟨hi, _⟩, rfl⟩, he⟩
  · exact hrd e he
  · subst he; exact ⟨hp, hr⟩
  · subst he; exact ⟨hr, hj⟩
  · subst he
    rw [get_swap_anchor hA j hr hp]
    exact ⟨hd, ne_zero_of_abs_gt hd⟩
  · subst he; exact hr
  · simp only [elimEvs, List.mem_cons, List.mem_singleton, List.not_mem_nil, or_false] at he
    rcases he with he | he
    · subst he; exact ⟨hi, hj⟩
    · subst he; exact ⟨hi, hr⟩

theorem evs_ok_step (m n : Nat) (j : Nat) (hj : j < n) (s : State) (ha : s.anchor ≤ m)
    (hw : WF m n s.A) (h : ∀ e ∈ s.evs, Ev.ok m n e) :
    ∀ e ∈ (colStep m n j s).1.evs, Ev.ok m n e := by
  have hrd := findPivot_evs_ok s.A hj s.anchor ha
  rcases colStep_cases m n j s ha with ⟨rd, hf, _, hc⟩ | ⟨p, rd, hf, hp1, hp2, hp3, _, hc⟩
  · rw [hc]
    rw [hf] at hrd
    intro e he
    rcases List.mem_append.mp he with he | he
    · exact h e he
    · exact hrd e he
  · rw [hc]
    rw [hf] at hrd
    intro e he
    rcases List.mem_append.mp he with he | he
    · exact h e he
    · exact pivotIter_evs_ok hw hj (by omega) hp2 hp3 rd hrd e he

/-- C8. Totality: `rref` is a total function, and on every `m x n` matrix each
cell it reads lies in `[0, m) x [0, n)`, each row index it passes to `swap`,
`mult` and `add` lies in `[0, m)`, and each divisor of the normalization is
larger than `EPSILON` in absolute value, hence not zero: the reciprocal is
always defined.  The result is again an `m x n` matrix. -/
theorem C8_reads_calls_in_bounds (m n : Nat) (A : Mat) (hA : WF m n A) :
    WF m n (rref m n A).A ∧ ∀ e ∈ (rref m n A).evs, Ev.ok m n e := by
  have h := rref_induct m n A hA
    (fun j s => j ≤ n ∧ ∀ e ∈ s.evs, Ev.ok m n e)
    (by simp [initState])
    (fun j s hj ha hw hI => ⟨by omega, evs_ok_step m n j hj s ha hw hI.2⟩)
  exact ⟨h.2.1, h.2.2.2⟩

/-- The bounds on reads, divisions and calls on the matrix of `main`. -/
theorem C8_reads_calls_in_bounds_witness :
    WF 4 4 mainA ∧ WF 4 4 (rref 4 4 mainA).A ∧ (∀ e ∈ (rref 4 4 mainA).evs, Ev.ok 4 4 e) :=
  ⟨by decide, C8_reads_calls_in_bounds 4 4 mainA (by decide)⟩

/-! ## A column that is zero in the input -/

theorem pivotIter_out_narr (m n j : Nat) (A : Mat) (r p : Nat) (rd : List Ev) :
    ∀ st ∈ (pivotIter m n j A r p rd).out,
      st.narr = Narr.swapRows (p + 1) (r + 1) ∨ st.narr = Narr.normalize (r + 1) ∨
      ∃ c i, st.narr = Narr.eliminate (r + 1) c (i + 1) (j + 1) := by
  rw [pivotIter_eq]
  intro st hst
  simp only [List.mem_append, List.mem_singleton, List.mem_map] at hst
  rcases hst with (hst | hst) | ⟨i, _, rfl⟩
  · by_cases h : r ≠ p
    · rw [if_pos h] at hst
      simp only [List.mem_singleton] at hst
      subst hst; exact Or.inl rfl
    · rw [if_neg h] at hst
      cases hst
  · subst hst; exact Or.inr (Or.inl rfl)
  · exact Or.inr (Or.inr ⟨_, i, rfl⟩)

theorem zero_column_step (m n : Nat) (c : Nat) (j : Nat) (s : State) (ha : s.anchor ≤ m)
    (hw : WF m n s.A)
    (h : (∀ i < m, get s.A i c = 0) ∧
      (s.cols.filter (fun r => decide (r.j = c))).length = (if c < j then 1 else 0) ∧
      (∀ rec ∈ s.cols, rec.j = c → rec.found = none ∧
        rec.out = [⟨Narr.skipCol (c + 1), none⟩] ∧
        rec.anchorAfter = rec.anchor ∧ rec.Aafter = rec.A) ∧
      (s.steps.filter (fun st => decide (st.narr = Narr.skipCol (c + 1)))).length
        = (if c < j then 1 else 0) ∧
      (∀ st ∈ s.steps, ∀ a f i, st.narr ≠ Narr.eliminate a f i (c + 1))) :
    (∀ i < m, get (colStep m n j s).1.A i c = 0) ∧
      ((colStep m n j s).1.cols.filter (fun r => decide (r.j = c))).length
        = (if c < j + 1 then 1 else 0) ∧
      (∀ rec ∈ (colStep m n j s).1.cols, rec.j = c → rec.found = none ∧
        rec.out = [⟨Narr.skipCol (c + 1), none⟩] ∧
        rec.anchorAfter = rec.anchor ∧ rec.Aafter = rec.A) ∧
      ((colStep m n j s).1.steps.filter
          (fun st => decide (st.narr = Narr.skipCol (c + 1)))).length
        = (if c < j + 1 then 1 else 0) ∧
      (∀ st ∈ (colStep m n j s).1.steps, ∀ a f i, st.narr ≠ Narr.eliminate a f i (c + 1)) := by
  obtain ⟨h1, h2, h3, h4, h5⟩ := h
  rcases colStep_cases m n j s ha with ⟨rd, _, _, hc⟩ | ⟨p, rd, _, hp1, hp2, hp3, _, hc⟩
  · rw [hc]
    simp only [List.filter_append, List.length_append, h2, h4]
    refine ⟨h1, ?_, ?_, ?_, ?_⟩
    · by_cases e : j = c
      · subst e; simp
      · have : ¬ (c < j + 1 ∧ ¬ c < j) := by omega
        by_cases e2 : c < j
        · have e3 : c < j + 1 := by omega
          simp [e, e2, e3]
        · have e3 : ¬ c < j + 1 := by omega
          simp [e, e2, e3]
    · intro rec hrec hj
      rcases List.mem_append.mp hrec with hrec | hrec
      · exact h3 rec hrec hj
      · simp only [List.mem_singleton] at hrec
        subst hrec
        simp only at hj
        subst hj
        exact ⟨rfl, rfl, rfl, rfl⟩
    · by_cases e : j = c
      · subst e; simp
      · by_cases e2 : c < j
        · have e3 : c < j + 1 := by omega
          simp [e, e2, e3]
        · have e3 : ¬ c < j + 1 := by omega
          simp [e, e2, e3]
    · intro st hst a f i
      rcases List.mem_append.mp hst with hst | hst
      · exact h5 st hst a f i
      · simp only [List.mem_singleton] at hst
        subst hst
        simp
  · have hjc : j ≠ c := by
      intro e
      subst e
      rw [h1 p hp2, abs_zero] at hp3
      exact absurd hp3 (not_lt.mpr (le_of_lt EPSILON_pos))
    have hr : s.anchor < m := by omega
    have hnarr := pivotIter_out_narr m n j s.A s.anchor p rd
    rw [hc]
    simp only [List.filter_append, List.length_append, h2, h4]
    have hf : (pivotIter m n j s.A s.anchor p rd).out.filter
        (fun st => decide (st.narr = Narr.skipCol (c + 1))) = [] := by
      rw [List.filter_eq_nil_iff]
      intro st hst
      rcases hnarr st hst with e | e | ⟨x, y, e⟩ <;> simp [e]
    refine ⟨?_, ?_, ?_, ?_, ?_⟩
    · intro i hi
      rw [pivotIter_col_unchanged hw j hr hp2 rd c (h1 _ hr) (h1 _ hp2)]
      exact h1 i hi
    · by_cases e2 : c < j
      · have e3 : c < j + 1 := by omega
        simp [hjc, e2, e3]
      · have e3 : ¬ c < j + 1 := by omega
        simp [hjc, e2, e3]
    · intro rec hrec hj
      rcases List.mem_append.mp hrec with hrec | hrec
      · exact h3 rec hrec hj
      · simp only [List.mem_singleton] at hrec
        subst hrec
        exact absurd hj hjc
    · rw [hf]
      by_cases e2 : c < j
      · have e3 : c < j + 1 := by omega
        simp [e2, e3]
      · have e3 : ¬ c < j + 1 := by omega
        simp [e2, e3]
    · intro st hst a f i
      rcases List.mem_append.mp hst with hst | hst
      · exact h5 st hst a f i
      · rcases hnarr st hst with e | e | ⟨x, y, e⟩ <;> rw [e] <;> simp
        exact fun _ _ _ => hjc

/-- C9, amended.  Skip scenario: when column `j` of the input is entirely
zero, the column loop has exactly one iteration for column `j`; that iteration
finds no pivot, writes exactly one step, the skip step narrated with `j + 1`
(so no swap, normalize or elimination step), and leaves `anchor` and the
matrix as they were.  In the whole trace there is exactly one skip step
narrated with `j + 1` and no elimination step for column `j + 1`.  Over exact
arithmetic (rational entries: no overflow, no NaN) column `j` of the returned
matrix is still zero. -/
theorem C9_skip_zero_column (m n : Nat) (A : Mat) (hA : WF m n A) (j : Nat) (hj : j < n)
    (hz : ∀ i < m, get A i j = 0) :
    ((rref m n A).cols.filter (fun r => decide (r.j = j))).length = 1 ∧
    (∀ rec ∈ (rref m n A).cols, rec.j = j → rec.found = none ∧
      rec.out = [⟨Narr.skipCol (j + 1), none⟩] ∧
      rec.anchorAfter = rec.anchor ∧ rec.Aafter = rec.A) ∧
    ((rref m n A).steps.filter (fun st => decide (st.narr = Narr.skipCol (j + 1)))).length = 1 ∧
    (∀ st ∈ (rref m n A).steps, ∀ a f i, st.narr ≠ Narr.eliminate a f i (j + 1)) ∧
    (∀ i < m, get (rref m n A).A i j = 0) := by
  have h := rref_induct m n A hA
    (fun k s => (∀ i < m, get s.A i j = 0) ∧
      (s.cols.filter (fun r => decide (r.j = j))).length = (if j < k then 1 else 0) ∧
      (∀ rec ∈ s.cols, rec.j = j → rec.found = none ∧
        rec.out = [⟨Narr.skipCol (j + 1), none⟩] ∧
        rec.anchorAfter = rec.anchor ∧ rec.Aafter = rec.A) ∧
      (s.steps.filter (fun st => decide (st.narr = Narr.skipCol (j + 1)))).length
        = (if j < k then 1 else 0) ∧
      (∀ st ∈ s.steps, ∀ a f i, st.narr ≠ Narr.eliminate a f i (j + 1)))
    (by simp [initState]; exact hz)
    (fun k s _ ha hw hI => zero_column_step m n j k s ha hw hI)
  obtain ⟨h1, h2, h3, h4, h5⟩ := h.2.2
  rw [if_pos hj] at h2 h4
  refine ⟨h2, h3, ?_, ?_, h1⟩
  · rw [rref_steps, List.filter_append, List.length_append, h4]
    simp
  · intro st hst a f i
    rw [rref_steps] at hst
    rcases List.mem_append.mp hst with hst | hst
    · exact h5 st hst a f i
    · simp only [List.mem_singleton] at hst
      subst hst
      simp

/-- The skip scenario on a `3 x 3` matrix whose second column is zero. -/
theorem C9_skip_zero_column_witness :
    WF 3 3 [[1, 0, 2], [3, 0, 4], [5, 0, 7]] ∧
    (∀ i < 3, get [[1, 0, 2], [3, 0, 4], [5, 0, 7]] i 1 = 0) ∧
    ((rref 3 3 [[1, 0, 2], [3, 0, 4], [5, 0, 7]]).cols.filter
      (fun r => decide (r.j = 1))).length = 1 ∧
    (∀ rec ∈ (rref 3 3 [[1, 0, 2], [3, 0, 4], [5, 0, 7]]).cols, rec.j = 1 →
      rec.found = none ∧ rec.out = [⟨Narr.skipCol (1 + 1), none⟩] ∧
      rec.anchorAfter = rec.anchor ∧ rec.Aafter = rec.A) ∧
    ((rref 3 3 [[1, 0, 2], [3, 0, 4], [5, 0, 7]]).steps.filter
      (fun st => decide (st.narr = Narr.skipCol (1 + 1)))).length = 1 ∧
    (∀ st ∈ (rref 3 3 [[1, 0, 2], [3, 0, 4], [5, 0, 7]]).steps,
      ∀ a f i, st.narr ≠ Narr.eliminate a f i (1 + 1)) ∧
    (∀ i < 3, get (rref 3 3 [[1, 0, 2], [3, 0, 4], [5, 0, 7]]).A i 1 = 0) :=
  ⟨by decide, by decide, C9_skip_zero_column 3 3 _ (by decide) 1 (by decide) (by decide)⟩

/-! ## More columns than rows -/

theorem pivots_length (m n : Nat) (A : Mat) (hA : WF m n A) :
    (pivots (rref m n A)).length = (rref m n A).anchor := by
  have := congrArg List.length (pivots_shape m n A hA).1
  simpa using this

theorem ExactSkips_snoc {m : Nat} {cols : List ColRec} {rec : ColRec}
    (h : ExactSkips m (cols ++ [rec])) :
    ExactSkips m cols ∧
      (rec.found = none → ∀ i, rec.anchor ≤ i → i < m → get rec.A i rec.j = 0) :=
  ⟨fun r hr => h r (List.mem_append_left _ hr),
   h rec (List.mem_append_right _ (List.mem_singleton.mpr rfl))⟩

theorem echelon_step (m n : Nat) (j : Nat) (s : State) (ha : s.anchor ≤ m)
    (hw : WF m n s.A)
    (hsh : ∀ p ∈ pivots s, p.1 < s.anchor ∧ p.2 < j)
    (h : ExactSkips m s.cols →
      (∀ i, s.anchor ≤ i → i < m → ∀ c < j, get s.A i c = 0) ∧
      (∀ p ∈ pivots s, ∀ c < p.2, get s.A p.1 c = 0)) :
    ExactSkips m (colStep m n j s).1.cols →
      (∀ i, (colStep m n j s).1.anchor ≤ i → i < m → ∀ c < j + 1,
        get (colStep m n j s).1.A i c = 0) ∧
      (∀ p ∈ pivots (colStep m n j s).1, ∀ c < p.2, get (colStep m n j s).1.A p.1 c = 0) := by
  rcases colStep_cases m n j s ha with ⟨rd, _, _, hc⟩ | ⟨p, rd, _, hp1, hp2, hp3, _, hc⟩
  · rw [hc]
    simp only
    intro hex
    obtain ⟨hex1, hex2⟩ := ExactSkips_snoc hex
    obtain ⟨e1, e2⟩ := h hex1
    rw [pivots_snoc s _ _ _ _ _ _ rfl]
    simp only [Option.map_none', Option.toList_none, List.append_nil]
    refine ⟨fun i hi1 hi2 c hc' => ?_, e2⟩
    by_cases hcj : c = j
    · subst hcj; exact hex2 rfl i hi1 hi2
    · exact e1 i hi1 hi2 c (by omega)
  · rw [hc]
    simp only
    intro hex
    obtain ⟨hex1, _⟩ := ExactSkips_snoc hex
    obtain ⟨e1, e2⟩ := h hex1
    have hr : s.anchor < m := by omega
    have hun : ∀ c < j, ∀ i, get (pivotIter m n j s.A s.anchor p rd).A i c = get s.A i c :=
      fun c hc' i => pivotIter_col_unchanged hw j hr hp2 rd c
        (e1 _ (le_refl _) hr c hc') (e1 _ hp1 hp2 c hc') i
    obtain ⟨_, hz⟩ := pivotIter_pivot_col hw j hr hp2 rd (ne_zero_of_abs_gt hp3)
    rw [pivots_snoc s _ _ _ _ _ _ rfl]
    simp only [Option.map_some', Option.toList_some]
    refine ⟨fun i hi1 hi2 c hc' => ?_, fun q hq c hc' => ?_⟩
    · by_cases hcj : c = j
      · subst hcj; exact hz i hi2 (by omega)
      · rw [hun c (by omega)]; exact e1 i (by omega) hi2 c (by omega)
    · rcases List.mem_append.mp hq with hq | hq
      · have := (hsh q hq).2
        rw [hun c (by omega)]
        exact e2 q hq c hc'
      · simp only [List.mem_singleton] at hq
        subst hq
        simp only at hc' ⊢
        rw [hun c hc']
        exact e1 _ (le_refl _) hr c hc'

/-- The form of the matrix `rref` returns when the tolerance hides nothing:
the pivots are in rows `0 .. anchor-1`; each pivot is a 1, alone in its column
and with zeros to its left; pivot rows and columns increase together; the rows
from `anchor` on are zero. -/
theorem rref_final_form (m n : Nat) (A : Mat) (hA : WF m n A)
    (hex : ExactSkips m (rref m n A).cols) :
    (pivots (rref m n A)).map Prod.fst = List.range (rref m n A).anchor ∧
    (∀ p ∈ pivots (rref m n A), p.1 < m ∧ p.2 < n ∧
      get (rref m n A).A p.1 p.2 = 1 ∧
      (∀ i < m, i ≠ p.1 → get (rref m n A).A i p.2 = 0) ∧
      (∀ c < p.2, get (rref m n A).A p.1 c = 0)) ∧
    List.Pairwise (fun p q : Nat × Nat => p.1 < q.1 ∧ p.2 < q.2) (pivots (rref m n A)) ∧
    (∀ i, (rref m n A).anchor ≤ i → i < m → ∀ c < n, get (rref m n A).A i c = 0) := by
  have h := rref_induct m n A hA
    (fun j s => ((pivots s).map Prod.fst = List.range s.anchor ∧
        (∀ p ∈ pivots s, p.1 < s.anchor ∧ p.2 < j) ∧
        List.Pairwise (fun p q : Nat × Nat => p.1 < q.1 ∧ p.2 < q.2) (pivots s)) ∧
      (ExactSkips m s.cols →
        (∀ i, s.anchor ≤ i → i < m → ∀ c < j, get s.A i c = 0) ∧
        (∀ p ∈ pivots s, ∀ c < p.2, get s.A p.1 c = 0)))
    (by simp [pivots, initState])
    (fun j s _ ha hw hI => ⟨pivots_shape_step m n j s ha hI.1,
      echelon_step m n j s ha hw hI.1.2.1 hI.2⟩)
  obtain ⟨han, _, ⟨hs1, hs2, hs3⟩, hE⟩ := h
  obtain ⟨e1, e2⟩ := hE hex
  have hC1 := (rref_induct m n A hA
    (fun _ s => ∀ p ∈ pivots s, p.1 < s.anchor ∧ get s.A p.1 p.2 = 1 ∧
      ∀ i < m, i ≠ p.1 → get s.A i p.2 = 0)
    (by simp [pivots, initState])
    (fun j s _ ha hw hI => pivot_property_step m n j s ha hw hI)).2.2
  refine ⟨hs1, fun p hp => ?_, hs3, e1⟩
  have := hs2 p hp
  have han' : (colLoop m n n 0 (initState A)).anchor ≤ m := han
  exact ⟨by omega, this.2, (hC1 p hp).2.1, (hC1 p hp).2.2, e2 p hp⟩

theorem lead_mem_pivots {m n : Nat} {R : Mat} {P : List (Nat × Nat)} {a : Nat}
    (h1 : P.map Prod.fst = List.range a)
    (h2 : ∀ p ∈ P, p.1 < m ∧ p.2 < n ∧ get R p.1 p.2 = 1 ∧
      (∀ i < m, i ≠ p.1 → get R i p.2 = 0) ∧ (∀ c < p.2, get R p.1 c = 0))
    (h4 : ∀ i, a ≤ i → i < m → ∀ c < n, get R i c = 0)
    {i k : Nat} (hi : i < m) (hl : IsLead n R i k) : (i, k) ∈ P := by
  obtain ⟨hk, hne, hz⟩ := hl
  have hia : i < a := by
    by_contra hcon
    exact hne (h4 i (by omega) hi k hk)
  have hmem : i ∈ P.map Prod.fst := by rw [h1]; exact List.mem_range.mpr hia
  obtain ⟨p, hp, hpi⟩ := List.mem_map.mp hmem
  obtain ⟨_, _, q1, _, q3⟩ := h2 p hp
  have hk2 : p.2 = k := by
    rcases Nat.lt_trichotomy p.2 k with h | h | h
    · have := hz p.2 h
      rw [← hpi, q1] at this
      exact absurd this one_ne_zero
    · exact h
    · have := q3 k h
      rw [hpi] at this
      exact absurd this hne
  have : p = (i, k) := Prod.ext hpi hk2
  rw [← this]; exact hp

/-- A matrix of the form described by `rref_final_form` is in reduced
row-echelon form. -/
theorem isRREF_of_form {m n : Nat} {R : Mat} {P : List (Nat × Nat)} {a : Nat}
    (h1 : P.map Prod.fst = List.range a)
    (h2 : ∀ p ∈ P, p.1 < m ∧ p.2 < n ∧ get R p.1 p.2 = 1 ∧
      (∀ i < m, i ≠ p.1 → get R i p.2 = 0) ∧ (∀ c < p.2, get R p.1 c = 0))
    (h3 : List.Pairwise (fun p q : Nat × Nat => p.1 < q.1 ∧ p.2 < q.2) P)
    (h4 : ∀ i, a ≤ i → i < m → ∀ c < n, get R i c = 0) : IsRREF m n R := by
  refine ⟨?_, ?_, ?_, ?_⟩
  · intro i hi k _ hl
    exact (h2 _ (lead_mem_pivots h1 h2 h4 hi hl)).2.2.1
  · intro i hi k _ hl
    exact (h2 _ (lead_mem_pivots h1 h2 h4 hi hl)).2.2.2.1
  · intro i hi r hr hir k _ c _ hl1 hl2
    have m1 := lead_mem_pivots h1 h2 h4 hi hl1
    have m2 := lead_mem_pivots h1 h2 h4 hr hl2
    rcases pairwise_trichotomy h3 m1 m2 with h | h | h
    · have := congrArg Prod.fst h
      simp only at this
      omega
    · exact h.2
    · have := h.1
      simp only at this
      omega
  · intro i hi r hr hz hnz
    have hra : r < a := by
      by_contra hcon
      exact hnz (fun c hc => h4 r (by omega) hr c hc)
    have hia : a ≤ i := by
      by_contra hcon
      have hmem : i ∈ P.map Prod.fst := by rw [h1]; exact List.mem_range.mpr (by omega)
      obtain ⟨p, hp, hpi⟩ := List.mem_map.mp hmem
      obtain ⟨_, q0, q1, _, _⟩ := h2 p hp
      have := hz p.2 q0
      rw [← hpi, q1] at this
      exact absurd this one_ne_zero
    omega

/-- C2, as stated, fails: `rref` returns the `1 x 1` matrix `[[1/1000000]]`
unchanged (its entry is not larger than `EPSILON`, so the column is skipped),
and that matrix is not in reduced row-echelon form. -/
theorem C2_not_always_rref :
    WF 1 1 [[1 / 1000000]] ∧ (rref 1 1 [[1 / 1000000]]).A = [[1 / 1000000]] ∧
      ¬ IsRREF 1 1 (rref 1 1 [[1 / 1000000]]).A := by
  decide!

/-- C2, amended.  For every `m x n` matrix on which the tolerance hides nothing
(whenever `rref` skips a column, the entries of that column in the rows
`anchor .. m-1` are exactly zero), the matrix `rref` returns is in reduced
row-echelon form: every non-zero row has leading entry 1, alone in its
column; the leading columns strictly increase down the rows; the all-zero
rows are below every non-zero row. -/
theorem C2_rref_form (m n : Nat) (A : Mat) (hA : WF m n A)
    (hex : ExactSkips m (rref m n A).cols) : IsRREF m n (rref m n A).A := by
  obtain ⟨h1, h2, h3, h4⟩ := rref_final_form m n A hA hex
  exact isRREF_of_form h1 h2 h3 h4

/-- The amended C2 on the matrix of `main`, where the only skipped column is exactly zero below the pivots. -/
theorem C2_rref_form_witness :
    WF 4 4 mainA ∧ ExactSkips 4 (rref 4 4 mainA).cols ∧ IsRREF 4 4 (rref 4 4 mainA).A :=
  ⟨by decide, by decide!, C2_rref_form 4 4 mainA (by decide) (by decide!)⟩

/-! ## Running `rref` on a matrix in reduced row-echelon form -/

theorem swap_self {m n : Nat} {A : Mat} (hA : WF m n A) {r : Nat} (hr : r < m) :
    swap n A r r = A := by
  apply Mat_ext (WF_swap hA hr hr) hA
  intro i _ k _
  rw [get_swap hA hr hr]
  by_cases h : i = r
  · subst h; simp
  · simp [h]

theorem normMat_self {m n : Nat} {A : Mat} (hA : WF m n A) {j r : Nat} (hr : r < m)
    (h1 : get A r j = 1) : normMat n j A r r = A := by
  apply Mat_ext (WF_normMat hA j hr hr) hA
  intro i _ k _
  rw [get_normMat hA j hr hr, h1]
  by_cases h : i = r
  · subst h; simp
  · simp [h]

theorem elimMat_self {m n : Nat} {A : Mat} (hA : WF m n A) {j r : Nat}
    (hz : ∀ i < m, i ≠ r → get A i j = 0) (t : Nat) (ht : t ≤ m) :
    elimMat n j r A t = A := by
  obtain ⟨hw, hg⟩ := elimMat_spec j (r := r) hA t ht
  apply Mat_ext hw hA
  intro i hi k _
  rw [hg]
  by_cases h : i < t ∧ i ≠ r
  · rw [if_pos h, hz i hi h.2]; ring
  · rw [if_neg h]

/-- An iteration whose pivot is already a 1 in the anchor row, alone in its
column, changes nothing: no swap step, a normalization by 1, eliminations
with factor 0, every snapshot equal to the matrix. -/
theorem pivotIter_noop {m n : Nat} {A : Mat} (hA : WF m n A) {j r : Nat} (hr : r < m)
    (h1 : get A r j = 1) (hz : ∀ i < m, i ≠ r → get A i j = 0) (rd : List Ev)
    (hrd : ∀ e ∈ rd, ∃ i k, e = Ev.read i k) :
    (pivotIter m n j A r r rd).A = A ∧
    (∀ st ∈ (pivotIter m n j A r r rd).out,
      (∀ a b, st.narr ≠ Narr.swapRows a b) ∧ (∀ B, st.snap = some B → B = A) ∧
      (∀ a f i c, st.narr = Narr.eliminate a f i c → f = 0)) ∧
    (∀ e ∈ (pivotIter m n j A r r rd).evs,
      (∀ a c, e = Ev.multCall a c → c = 1) ∧ (∀ a b c, e = Ev.addCall a b c → c = 0)) := by
  rw [pivotIter_eq, normMat_self hA hr h1, swap_self hA hr]
  refine ⟨elimMat_self hA hz m (le_refl m), ?_, ?_⟩
  · intro st hst
    simp only [ne_eq, not_true_eq_false, if_false, List.nil_append, List.mem_append,
      List.mem_singleton, List.mem_map, List.mem_filter, List.mem_range,
      decide_eq_true_eq] at hst
    rcases hst with hst | ⟨i, ⟨hi, hne⟩, rfl⟩
    · subst hst
      refine ⟨fun a b => (by simp), fun B hB => ?_, fun a f i c h => (by simp at h)⟩
      simp only [Option.some.injEq] at hB
      exact hB.symm
    · refine ⟨fun a b => (by simp [elimStep]), fun B hB => ?_, fun a f i' c h => ?_⟩
      · simp only [elimStep, Option.some.injEq] at hB
        rw [← hB]
        exact elimMat_self hA hz (i + 1) (by omega)
      · simp only [elimStep, Narr.eliminate.injEq] at h
        rw [← h.2.1, elimMat_self hA hz i (by omega), hz i hi hne]
        simp
  · intro e he
    simp only [List.mem_append, List.mem_cons, List.mem_singleton, List.not_mem_nil, or_false,
      List.mem_flatten, List.mem_map, List.mem_filter, List.mem_range,
      decide_eq_true_eq] at he
    rcases he with (he | he | he | he | he) | ⟨l, ⟨i, ⟨hi, hne⟩, rfl⟩, he⟩
    · obtain ⟨i, k, rfl⟩ := hrd e he
      exact ⟨fun a c h => (by cases h), fun a b c h => (by cases h)⟩
    · subst he; exact ⟨fun a c h => (by cases h), fun a b c h => (by cases h)⟩
    · subst he; exact ⟨fun a c h => (by cases h), fun a b c h => (by cases h)⟩
    · subst he; exact ⟨fun a c h => (by cases h), fun a b c h => (by cases h)⟩
    · subst he
      refine ⟨fun a c h => ?_, fun a b c h => (by cases h)⟩
      simp only [Ev.multCall.injEq] at h
      rw [← h.2, h1]; norm_num
    · simp only [elimEvs, List.mem_cons, List.mem_singleton, List.not_mem_nil, or_false] at he
      rcases he with he | he
      · subst he; exact ⟨fun a c h => (by cases h), fun a b c h => (by cases h)⟩
      · subst he
        refine ⟨fun a c h => (by cases h), fun a b c h => ?_⟩
        simp only [Ev.addCall.injEq] at h
        rw [← h.2.2, elimMat_self hA hz i (by omega), hz i hi hne]
        simp

theorem exists_lead {n : Nat} {A : Mat} {i : Nat} (h : ¬ IsZeroRow n A i) :
    ∃ k < n, IsLead n A i k := by
  have hex : ∃ k, k < n ∧ get A i k ≠ 0 := by
    unfold IsZeroRow at h
    push_neg at h
    exact h
  classical
  refine ⟨Nat.find hex, (Nat.find_spec hex).1, (Nat.find_spec hex).1, (Nat.find_spec hex).2, ?_⟩
  intro c hc
  by_contra hne
  exact Nat.find_min hex hc ⟨lt_trans hc (Nat.find_spec hex).1, hne⟩

theorem findPivot_rd_reads {A : Mat} {j fuel a : Nat} {x : Option Nat} {rd : List Ev}
    (h : findPivot A j fuel a [] = (x, rd)) : ∀ e ∈ rd, ∃ i k, e = Ev.read i k := by
  obtain ⟨cnt, _, h2⟩ := findPivot_reads (A := A) (j := j) fuel a []
  rw [h] at h2
  simp only [List.nil_append] at h2
  subst h2
  intro e he
  obtain ⟨i, _, rfl⟩ := List.mem_map.mp he
  exact ⟨i, j, rfl⟩

theorem rref_input_step (m n : Nat) (A : Mat) (hA : WF m n A) (hR : IsRREF m n A)
    (j : Nat) (hj : j < n) (s : State) (ha : s.anchor ≤ m)
    (h : s.A = A ∧
      (∀ i < s.anchor, ∃ k < j, IsLead n A i k) ∧
      (∀ i, s.anchor ≤ i → i < m → ∀ c < j, get A i c = 0) ∧
      (∀ st ∈ s.steps, (∀ a b, st.narr ≠ Narr.swapRows a b) ∧
        (∀ B, st.snap = some B → B = A) ∧
        (∀ a f i c, st.narr = Narr.eliminate a f i c → f = 0)) ∧
      (∀ e ∈ s.evs, (∀ a c, e = Ev.multCall a c → c = 1) ∧
        (∀ a b c, e = Ev.addCall a b c → c = 0))) :
    (colStep m n j s).1.A = A ∧
      (∀ i < (colStep m n j s).1.anchor, ∃ k < j + 1, IsLead n A i k) ∧
      (∀ i, (colStep m n j s).1.anchor ≤ i → i < m → ∀ c < j + 1, get A i c = 0) ∧
      (∀ st ∈ (colStep m n j s).1.steps, (∀ a b, st.narr ≠ Narr.swapRows a b) ∧
        (∀ B, st.snap = some B → B = A) ∧
        (∀ a f i c, st.narr = Narr.eliminate a f i c → f = 0)) ∧
      (∀ e ∈ (colStep m n j s).1.evs, (∀ a c, e = Ev.multCall a c → c = 1) ∧
        (∀ a b c, e = Ev.addCall a b c → c = 0)) := by
  obtain ⟨hsA, hlead, hzero, hsteps, hevs⟩ := h
  obtain ⟨R1, R2, R3, R4⟩ := hR
  -- a non-zero entry in column `j` at or below the anchor row is a leading 1
  have key : ∀ i, s.anchor ≤ i → i < m → get A i j ≠ 0 → IsLead n A i j :=
    fun i h1 h2 h3 => ⟨hj, h3, hzero i h1 h2⟩
  rcases colStep_cases m n j s ha with ⟨rd, hf, hnone, hc⟩ | ⟨p, rd, hf, hp1, hp2, hp3, _, hc⟩
  · rw [hc]
    simp only
    refine ⟨hsA, ?_, ?_, ?_, ?_⟩
    · intro i hi
      obtain ⟨k, hk, hl⟩ := hlead i hi
      exact ⟨k, by omega, hl⟩
    · intro i hi1 hi2 c hc'
      by_cases hcj : c = j
      · subst hcj
        by_contra hne
        have h1 := R1 i hi2 c hj (key i hi1 hi2 hne)
        apply hnone i hi1 hi2
        rw [hsA, h1]
        unfold EPSILON; norm_num
      · exact hzero i hi1 hi2 c (by omega)
    · intro st hst
      rcases List.mem_append.mp hst with hst | hst
      · exact hsteps st hst
      · simp only [List.mem_singleton] at hst
        subst hst
        exact ⟨fun a b => (by simp), fun B hB => (by cases hB), fun a f i c h => (by cases h)⟩
    · intro e he
      rcases List.mem_append.mp he with he | he
      · exact hevs e he
      · obtain ⟨i, k, rfl⟩ := findPivot_rd_reads hf e he
        exact ⟨fun a c h => (by cases h), fun a b c h => (by cases h)⟩
  · rw [hsA] at hp3 hc
    have hlp : IsLead n A p j := key p hp1 hp2 (ne_zero_of_abs_gt hp3)
    have hr : s.anchor < m := by omega
    have hpr : p = s.anchor := by
      by_contra hne
      have hlt : s.anchor < p := by omega
      have hnz : ¬ IsZeroRow n A s.anchor := by
        intro hz
        have := R4 s.anchor hr p hp2 hz (fun hzp => hlp.2.1 (hzp j hj))
        omega
      obtain ⟨k, hk, hl⟩ := exists_lead hnz
      have hkj : k < j := R3 s.anchor hr p hp2 hlt k hk j hj hl hlp
      exact hl.2.1 (hzero s.anchor (le_refl _) hr k hkj)
    subst hpr
    have h1 : get A s.anchor j = 1 := R1 _ hr j hj hlp
    have hz : ∀ i < m, i ≠ s.anchor → get A i j = 0 := R2 _ hr j hj hlp
    obtain ⟨n1, n2, n3⟩ := pivotIter_noop hA hr h1 hz rd (findPivot_rd_reads hf)
    rw [hc]
    simp only
    refine ⟨n1, ?_, ?_, ?_, ?_⟩
    · intro i hi
      by_cases hia : i < s.anchor
      · obtain ⟨k, hk, hl⟩ := hlead i hia
        exact ⟨k, by omega, hl⟩
      · have : i = s.anchor := by omega
        subst this
        exact ⟨j, by omega, hlp⟩
    · intro i hi1 hi2 c hc'
      by_cases hcj : c = j
      · subst hcj; exact hz i hi2 (by omega)
      · exact hzero i (by omega) hi2 c (by omega)
    · intro st hst
      rcases List.mem_append.mp hst with hst | hst
      · exact hsteps st hst
      · exact n2 st hst
    · intro e he
      rcases List.mem_append.mp he with he | he
      · exact hevs e he
      · exact n3 e he

/-- C7. Idempotence on RREF input: on a matrix that is already in reduced
row-echelon form, `rref` returns the same matrix, emits no swap step, every
matrix it writes to the trace is the input matrix, every elimination step
narrates the factor 0, every call of `mult` scales by 1 and every call of
`add` adds a factor of 0. -/
theorem C7_idempotent_on_rref (m n : Nat) (A : Mat) (hA : WF m n A) (hR : IsRREF m n A) :
    (rref m n A).A = A ∧
    (∀ st ∈ (rref m n A).steps, (∀ a b, st.narr ≠ Narr.swapRows a b) ∧
      (∀ B, st.snap = some B → B = A) ∧
      (∀ a f i c, st.narr = Narr.eliminate a f i c → f = 0)) ∧
    (∀ e ∈ (rref m n A).evs, (∀ a c, e = Ev.multCall a c → c = 1) ∧
      (∀ a b c, e = Ev.addCall a b c → c = 0)) := by
  have h := rref_induct m n A hA
    (fun j s => j ≤ n ∧ s.A = A ∧
      (∀ i < s.anchor, ∃ k < j, IsLead n A i k) ∧
      (∀ i, s.anchor ≤ i → i < m → ∀ c < j, get A i c = 0) ∧
      (∀ st ∈ s.steps, (∀ a b, st.narr ≠ Narr.swapRows a b) ∧
        (∀ B, st.snap = some B → B = A) ∧
        (∀ a f i c, st.narr = Narr.eliminate a f i c → f = 0)) ∧
      (∀ e ∈ s.evs, (∀ a c, e = Ev.multCall a c → c = 1) ∧
        (∀ a b c, e = Ev.addCall a b c → c = 0)))
    (by simp [initState])
    (fun j s hj ha _ hI => ⟨by omega, rref_input_step m n A hA hR j hj s ha hI.2⟩)
  obtain ⟨_, _, _, hsA, _, _, hsteps, hevs⟩ := h
  have hfin : (rref m n A).A = A := hsA
  refine ⟨hfin, ?_, hevs⟩
  intro st hst
  rw [rref_steps] at hst
  rcases List.mem_append.mp hst with hst | hst
  · exact hsteps st hst
  · simp only [List.mem_singleton] at hst
    subst hst
    refine ⟨fun a b => (by simp), fun B hB => ?_, fun a f i c h => (by cases h)⟩
    simp only [Option.some.injEq] at hB
    rw [← hB]; exact hfin

/-- The idempotence on a `3 x 4` matrix in reduced row-echelon form with a free column and a zero row. -/
theorem C7_idempotent_on_rref_witness :
    WF 3 4 [[1, 2, 0, 3], [0, 0, 1, 4], [0, 0, 0, 0]] ∧
    IsRREF 3 4 [[1, 2, 0, 3], [0, 0, 1, 4], [0, 0, 0, 0]] ∧
    (rref 3 4 [[1, 2, 0, 3], [0, 0, 1, 4], [0, 0, 0, 0]]).A
      = [[1, 2, 0, 3], [0, 0, 1, 4], [0, 0, 0, 0]] ∧
    (∀ st ∈ (rref 3 4 [[1, 2, 0, 3], [0, 0, 1, 4], [0, 0, 0, 0]]).steps,
      (∀ a b, st.narr ≠ Narr.swapRows a b) ∧
      (∀ B, st.snap = some B → B = [[1, 2, 0, 3], [0, 0, 1, 4], [0, 0, 0, 0]]) ∧
      (∀ a f i c, st.narr = Narr.eliminate a f i c → f = 0)) ∧
    (∀ e ∈ (rref 3 4 [[1, 2, 0, 3], [0, 0, 1, 4], [0, 0, 0, 0]]).evs,
      (∀ a c, e = Ev.multCall a c → c = 1) ∧
      (∀ a b c, e = Ev.addCall a b c → c = 0)) :=
  ⟨by decide, by decide!, C7_idempotent_on_rref 3 4 _ (by decide) (by decide!)⟩

/-! ## The contracts of the row operations -/

/-- C14. `swap` contract: for an `m x n` matrix and rows `a, b < m`, after
`swap(A, a, b)` row `a` holds the former row `b`, row `b` holds the former row
`a`, every other row is unchanged (and the matrix is still `m x n`); when
`a = b` the matrix is unchanged; and swapping twice restores the matrix. -/
theorem C14_swap_contract (m n : Nat) (A : Mat) (hA : WF m n A) (a b : Nat)
    (ha : a < m) (hb : b < m) :
    WF m n (swap n A a b) ∧
    (∀ k, get (swap n A a b) a k = get A b k) ∧
    (∀ k, get (swap n A a b) b k = get A a k) ∧
    (∀ i, i ≠ a → i ≠ b → ∀ k, get (swap n A a b) i k = get A i k) ∧
    (a = b → swap n A a b = A) ∧
    swap n (swap n A a b) a b = A := by
  have hw := WF_swap hA ha hb
  refine ⟨hw, fun k => ?_, fun k => ?_, fun i h1 h2 k => ?_, fun h => ?_, ?_⟩
  · rw [get_swap hA ha hb, if_pos rfl]
  · rw [get_swap hA ha hb]
    by_cases h : b = a
    · subst h; simp
    · simp [h]
  · rw [get_swap hA ha hb, if_neg h1, if_neg h2]
  · subst h; exact swap_self hA ha
  · apply Mat_ext (WF_swap hw ha hb) hA
    intro i _ k _
    rw [get_swap hw ha hb, get_swap hA ha hb, get_swap hA ha hb, get_swap hA ha hb]
    by_cases h1 : i = a
    · subst h1
      by_cases h2 : b = i
      · subst h2; simp
      · simp [h2]
    · by_cases h2 : i = b
      · subst h2; simp [h1]
      · simp [h1, h2]

/-- The `swap` contract on the matrix of `main`, rows 1 and 3. -/
theorem C14_swap_contract_witness :
    WF 4 4 mainA ∧ 1 < 4 ∧ 3 < 4 ∧
    (WF 4 4 (swap 4 mainA 1 3) ∧
    (∀ k, get (swap 4 mainA 1 3) 1 k = get mainA 3 k) ∧
    (∀ k, get (swap 4 mainA 1 3) 3 k = get mainA 1 k) ∧
    (∀ i, i ≠ 1 → i ≠ 3 → ∀ k, get (swap 4 mainA 1 3) i k = get mainA i k) ∧
    (1 = 3 → swap 4 mainA 1 3 = mainA) ∧
    swap 4 (swap 4 mainA 1 3) 1 3 = mainA) :=
  ⟨by decide, by decide, by decide, C14_swap_contract 4 4 mainA (by decide) 1 3 (by decide)
    (by decide)⟩

/-- C15. `add` contract: for an `m x n` matrix, rows `a != b` below `m` and a
scalar `c`, after `add(A, a, b, c)` every entry of row `a` is its former value
plus `c` times the entry of row `b` in the same column, and every other row
(row `b` included) is unchanged; so when `A[b][j] = 1`, the call
`add(A, i, b, -A[i][j])` leaves exactly 0 at `(i, j)`. -/
theorem C15_add_contract (m n : Nat) (A : Mat) (hA : WF m n A) (a b : Nat)
    (ha : a < m) (_hb : b < m) (hab : a ≠ b) (c : ℚ) :
    WF m n (add n A a b c) ∧
    (∀ k, get (add n A a b c) a k = get A a k + c * get A b k) ∧
    (∀ i, i ≠ a → ∀ k, get (add n A a b c) i k = get A i k) ∧
    (∀ k, get (add n A a b c) b k = get A b k) ∧
    (∀ j, get A b j = 1 → get (add n A a b (-get A a j)) a j = 0) := by
  refine ⟨WF_add hA ha b c, fun k => ?_, fun i hi k => ?_, fun k => ?_, fun j hj => ?_⟩
  · rw [get_add hA ha, if_pos rfl]
  · rw [get_add hA ha, if_neg hi]
  · rw [get_add hA ha, if_neg (fun h => hab h.symm)]
  · rw [get_add hA ha, if_pos rfl, hj]; ring

/-- The `add` contract on the matrix of `main`: row 2 plus 3 times row 0. -/
theorem C15_add_contract_witness :
    WF 4 4 mainA ∧ 2 < 4 ∧ 0 < 4 ∧ 2 ≠ 0 ∧
    (WF 4 4 (add 4 mainA 2 0 3) ∧
    (∀ k, get (add 4 mainA 2 0 3) 2 k = get mainA 2 k + 3 * get mainA 0 k) ∧
    (∀ i, i ≠ 2 → ∀ k, get (add 4 mainA 2 0 3) i k = get mainA i k) ∧
    (∀ k, get (add 4 mainA 2 0 3) 0 k = get mainA 0 k) ∧
    (∀ j, get mainA 0 j = 1 → get (add 4 mainA 2 0 (-get mainA 2 j)) 2 j = 0)) :=
  ⟨by decide, by decide, by decide, by decide,
    C15_add_contract 4 4 mainA (by decide) 2 0 (by decide) (by decide) (by decide) 3⟩

/-- C16. `mult` contract: for an `m x n` matrix, a row `a < m` and a scalar
`c`, after `mult(A, a, c)` every entry of row `a` is its former value times
`c` and every other row is unchanged; so for a column `j` with
`A[a][j] != 0`, the call `mult(A, a, 1 / A[a][j])` leaves exactly 1 at
`(a, j)`. -/
theorem C16_mult_contract (m n : Nat) (A : Mat) (hA : WF m n A) (a : Nat) (ha : a < m)
    (c : ℚ) :
    WF m n (mult n A a c) ∧
    (∀ k, get (mult n A a c) a k = get A a k * c) ∧
    (∀ i, i ≠ a → ∀ k, get (mult n A a c) i k = get A i k) ∧
    (∀ j, get A a j ≠ 0 → get (mult n A a (1 / get A a j)) a j = 1) := by
  refine ⟨WF_mult hA ha c, fun k => ?_, fun i hi k => ?_, fun j hj => ?_⟩
  · rw [get_mult hA ha, if_pos rfl]
  · rw [get_mult hA ha, if_neg hi]
  · rw [get_mult hA ha, if_pos rfl]
    field_simp

/-- The `mult` contract on the matrix of `main`: row 1 times 1/5. -/
theorem C16_mult_contract_witness :
    WF 4 4 mainA ∧ 1 < 4 ∧
    (WF 4 4 (mult 4 mainA 1 (1 / 5)) ∧
    (∀ k, get (mult 4 mainA 1 (1 / 5)) 1 k = get mainA 1 k * (1 / 5)) ∧
    (∀ i, i ≠ 1 → ∀ k, get (mult 4 mainA 1 (1 / 5)) i k = get mainA i k) ∧
    (∀ j, get mainA 1 j ≠ 0 → get (mult 4 mainA 1 (1 / get mainA 1 j)) 1 j = 1)) :=
  ⟨by decide, by decide, C16_mult_contract 4 4 mainA (by decide) 1 (by decide) (1 / 5)⟩

/-! ## Running `rref` twice -/

/-- On a matrix in reduced row-echelon form `rref` returns the matrix itself. -/
theorem rref_of_isRREF (m n : Nat) (A : Mat) (hA : WF m n A) (hR : IsRREF m n A) :
    (rref m n A).A = A := by
  have h := rref_induct m n A hA
    (fun j s => j ≤ n ∧ s.A = A ∧
      (∀ i < s.anchor, ∃ k < j, IsLead n A i k) ∧
      (∀ i, s.anchor ≤ i → i < m → ∀ c < j, get A i c = 0) ∧
      (∀ st ∈ s.steps, (∀ a b, st.narr ≠ Narr.swapRows a b) ∧
        (∀ B, st.snap = some B → B = A) ∧
        (∀ a f i c, st.narr = Narr.eliminate a f i c → f = 0)) ∧
      (∀ e ∈ s.evs, (∀ a c, e = Ev.multCall a c → c = 1) ∧
        (∀ a b c, e = Ev.addCall a b c → c = 0)))
    (by simp [initState])
    (fun j s hj ha _ hI => ⟨by omega, rref_input_step m n A hA hR j hj s ha hI.2⟩)
  exact h.2.2.2.1

theorem rref_WF (m n : Nat) (A : Mat) (hA : WF m n A) : WF m n (rref m n A).A :=
  (rref_induct m n A hA (fun _ _ => True) trivial (fun _ _ _ _ _ _ => trivial)).2.1

/-- C17, as stated, fails: on `[[1/1000000, 2/1000000], [0, 1]]` the first
column is skipped (no entry exceeds `EPSILON`), the normalization of the
second column then scales the hidden entry up, and a second run of `rref`
changes the matrix returned by the first. -/
theorem C17_not_idempotent :
    WF 2 2 [[1 / 1000000, 2 / 1000000], [0, 1]] ∧
    (rref 2 2 [[1 / 1000000, 2 / 1000000], [0, 1]]).A = [[1 / 2, 1], [-1 / 2, 0]] ∧
    (rref 2 2 (rref 2 2 [[1 / 1000000, 2 / 1000000], [0, 1]]).A).A = [[1, 0], [0, 1]] ∧
    (rref 2 2 (rref 2 2 [[1 / 1000000, 2 / 1000000], [0, 1]]).A).A ≠
      (rref 2 2 [[1 / 1000000, 2 / 1000000], [0, 1]]).A := by
  decide!

/-- C17, amended.  For every `m x n` matrix on which the tolerance hides
nothing in the first run (whenever `rref` skips a column, the entries of that
column in the rows `anchor .. m-1` are exactly zero), running `rref` on the
matrix that `rref` returned returns that same matrix again. -/
theorem C17_idempotent_exact (m n : Nat) (A : Mat) (hA : WF m n A)
    (hex : ExactSkips m (rref m n A).cols) :
    (rref m n (rref m n A).A).A = (rref m n A).A := by
  obtain ⟨h1, h2, h3, h4⟩ := rref_final_form m n A hA hex
  exact rref_of_isRREF m n _ (rref_WF m n A hA) (isRREF_of_form h1 h2 h3 h4)

/-- The amended C17 on the matrix of `main`. -/
theorem C17_idempotent_exact_witness :
    WF 4 4 mainA ∧ ExactSkips 4 (rref 4 4 mainA).cols ∧
    (rref 4 4 (rref 4 4 mainA).A).A = (rref 4 4 mainA).A :=
  ⟨by decide, by decide!, C17_idempotent_exact 4 4 mainA (by decide) (by decide!)⟩

/-- C19. RREF when the tolerance hides nothing: if, each time `rref` skips a
column, every entry of that column in the rows `anchor .. m-1` is exactly 0,
then with `P` the number of pivots, the pivots are in the rows `0 .. P-1`;
each of these rows has a 1 at its pivot column, zeros to its left and zeros
elsewhere in that column; the pivot columns strictly increase; and the rows
`P .. m-1` are entirely zero. -/
theorem C19_rref_pivot_form (m n : Nat) (A : Mat) (hA : WF m n A)
    (hex : ExactSkips m (rref m n A).cols) :
    (pivots (rref m n A)).length ≤ m ∧
    (pivots (rref m n A)).map Prod.fst = List.range (pivots (rref m n A)).length ∧
    (∀ p ∈ pivots (rref m n A), p.2 < n ∧
      get (rref m n A).A p.1 p.2 = 1 ∧
      (∀ c < p.2, get (rref m n A).A p.1 c = 0) ∧
      (∀ i < m, i ≠ p.1 → get (rref m n A).A i p.2 = 0)) ∧
    List.Pairwise (· < ·) ((pivots (rref m n A)).map Prod.snd) ∧
    (∀ i, (pivots (rref m n A)).length ≤ i → i < m →
      ∀ c < n, get (rref m n A).A i c = 0) := by
  obtain ⟨h1, h2, h3, h4⟩ := rref_final_form m n A hA hex
  have hlen := pivots_length m n A hA
  have han := (rref_induct m n A hA (fun _ _ => True) trivial
    (fun _ _ _ _ _ _ => trivial)).1
  refine ⟨by omega, by rw [hlen]; exact h1, fun p hp => ?_, ?_, ?_⟩
  · obtain ⟨_, q1, q2, q3, q4⟩ := h2 p hp
    exact ⟨q1, q2, q4, q3⟩
  · rw [List.pairwise_map]
    exact h3.imp (fun h => h.2)
  · rw [hlen]; exact h4

/-- The pivot form on the matrix of `main`. -/
theorem C19_rref_pivot_form_witness :
    WF 4 4 mainA ∧ ExactSkips 4 (rref 4 4 mainA).cols ∧
    ((pivots (rref 4 4 mainA)).length ≤ 4 ∧
    (pivots (rref 4 4 mainA)).map Prod.fst = List.range (pivots (rref 4 4 mainA)).length ∧
    (∀ p ∈ pivots (rref 4 4 mainA), p.2 < 4 ∧
      get (rref 4 4 mainA).A p.1 p.2 = 1 ∧
      (∀ c < p.2, get (rref 4 4 mainA).A p.1 c = 0) ∧
      (∀ i < 4, i ≠ p.1 → get (rref 4 4 mainA).A i p.2 = 0)) ∧
    List.Pairwise (· < ·) ((pivots (rref 4 4 mainA)).map Prod.snd) ∧
    (∀ i, (pivots (rref 4 4 mainA)).length ≤ i → i < 4 →
      ∀ c < 4, get (rref 4 4 mainA).A i c = 0)) :=
  ⟨by decide, by decide!, C19_rref_pivot_form 4 4 mainA (by decide) (by decide!)⟩

/-! ## The records of the column loop -/

theorem pivotIter_out (m n j : Nat) (A : Mat) (r a : Nat) (rd : List Ev) :
    (pivotIter m n j A r a rd).out = pivotOut m n j A r a := by
  rw [pivotIter_eq]; rfl

theorem pivotIter_A (m n j : Nat) (A : Mat) (r a : Nat) (rd : List Ev) :
    (pivotIter m n j A r a rd).A = elimMat n j r (normMat n j A r a) m := by
  rw [pivotIter_eq]

/-- Invariant of the column loop on its records: one record per column, in
order; each record faithful; each record starts where the previous one ended,
the first from the input with `anchor = 0`, the last ending in the current
state; `anchor` is at most the number of columns processed. -/
theorem records_step (m n : Nat) (A0 : Mat) (j : Nat) (hj : j < n) (s : State)
    (ha : s.anchor ≤ m) (hw : WF m n s.A)
    (h : s.cols.map (fun r => r.j) = List.range j ∧
      (∀ rec ∈ s.cols, RecOK m n rec) ∧
      List.Chain' Linked s.cols ∧
      (∀ rec ∈ s.cols.head?, rec.anchor = 0 ∧ rec.A = A0) ∧
      (∀ rec ∈ s.cols.getLast?, rec.anchorAfter = s.anchor ∧ rec.Aafter = s.A) ∧
      (s.cols = [] → s.anchor = 0 ∧ s.A = A0) ∧
      s.anchor ≤ j) :
    (colStep m n j s).1.cols.map (fun r => r.j) = List.range (j + 1) ∧
      (∀ rec ∈ (colStep m n j s).1.cols, RecOK m n rec) ∧
      List.Chain' Linked (colStep m n j s).1.cols ∧
      (∀ rec ∈ (colStep m n j s).1.cols.head?, rec.anchor = 0 ∧ rec.A = A0) ∧
      (∀ rec ∈ (colStep m n j s).1.cols.getLast?,
        rec.anchorAfter = (colStep m n j s).1.anchor ∧ rec.Aafter = (colStep m n j s).1.A) ∧
      ((colStep m n j s).1.cols = [] →
        (colStep m n j s).1.anchor = 0 ∧ (colStep m n j s).1.A = A0) ∧
      (colStep m n j s).1.anchor ≤ j + 1 := by
  obtain ⟨h1, h2, h3, h4, h5, h6, h7⟩ := h
  -- what is common to the two cases: appending a record `rec` that starts at the state
  have common : ∀ (rec : ColRec), rec.j = j → rec.anchor = s.anchor → rec.A = s.A →
      RecOK m n rec →
      (s.cols ++ [rec]).map (fun r => r.j) = List.range (j + 1) ∧
      (∀ r ∈ s.cols ++ [rec], RecOK m n r) ∧
      List.Chain' Linked (s.cols ++ [rec]) ∧
      (∀ r ∈ (s.cols ++ [rec]).head?, r.anchor = 0 ∧ r.A = A0) ∧
      (∀ r ∈ (s.cols ++ [rec]).getLast?, r.anchorAfter = rec.anchorAfter ∧
        r.Aafter = rec.Aafter) ∧
      (s.cols ++ [rec] = [] → rec.anchorAfter = 0 ∧ rec.Aafter = A0) := by
    intro rec e1 e2 e3 hok
    refine ⟨?_, ?_, ?_, ?_, ?_, ?_⟩
    · rw [List.map_append, h1, List.range_succ, List.map_singleton, e1]
    · intro r hr
      rcases List.mem_append.mp hr with hr | hr
      · exact h2 r hr
      · rw [List.mem_singleton.mp hr]; exact hok
    · rw [List.chain'_append]
      refine ⟨h3, List.chain'_singleton _, ?_⟩
      intro x hx y hy
      simp only [List.head?_cons, Option.mem_def, Option.some.injEq] at hy
      subst hy
      obtain ⟨q1, q2⟩ := h5 x hx
      exact ⟨by rw [e2, q1], by rw [e3, q2]⟩
    · intro r hr
      cases hcols : s.cols with
      | nil =>
        rw [hcols] at hr
        simp only [List.nil_append, List.head?_cons, Option.mem_def, Option.some.injEq] at hr
        subst hr
        obtain ⟨q1, q2⟩ := h6 hcols
        exact ⟨by rw [e2, q1], by rw [e3, q2]⟩
      | cons x xs =>
        rw [hcols] at hr
        simp only [List.cons_append, List.head?_cons, Option.mem_def, Option.some.injEq] at hr
        subst hr
        exact h4 x (by rw [hcols]; simp)
    · intro r hr
      simp only [List.getLast?_append, List.getLast?_singleton, Option.or_some,
        Option.mem_def, Option.some.injEq] at hr
      have hr2 : rec = r := by simpa [Option.or] using hr
      subst hr2
      exact ⟨rfl, rfl⟩
    · intro hnil
      simp at hnil
  rcases colStep_cases m n j s ha with ⟨rd, _, hnone, hc⟩ | ⟨p, rd, _, hp1, hp2, hp3, hp4, hc⟩
  · rw [hc]
    simp only
    obtain ⟨c1, c2, c3, c4, c5, c6⟩ :=
      common ⟨j, s.anchor, s.A, none, [⟨Narr.skipCol (j + 1), none⟩], s.anchor, s.A⟩
        rfl rfl rfl
        ⟨hj, h7, ha, hw, Or.inl ⟨rfl, hnone, rfl, rfl, rfl⟩⟩
    exact ⟨c1, c2, c3, c4, c5, c6, by omega⟩
  · rw [hc]
    simp only
    obtain ⟨c1, c2, c3, c4, c5, c6⟩ :=
      common ⟨j, s.anchor, s.A, some p, (pivotIter m n j s.A s.anchor p rd).out,
          s.anchor + 1, (pivotIter m n j s.A s.anchor p rd).A⟩
        rfl rfl rfl
        ⟨hj, h7, ha, hw, Or.inr ⟨p, rfl, hp1, hp2, hp3, hp4, pivotIter_out _ _ _ _ _ _ _,
          rfl, pivotIter_A _ _ _ _ _ _ _⟩⟩
    exact ⟨c1, c2, c3, c4, c5, c6, by omega⟩

/-- The records of a run of `rref`. -/
theorem rref_records (m n : Nat) (A : Mat) (hA : WF m n A) :
    (rref m n A).cols.map (fun r => r.j) = List.range n ∧
      (∀ rec ∈ (rref m n A).cols, RecOK m n rec) ∧
      List.Chain' Linked (rref m n A).cols ∧
      (∀ rec ∈ (rref m n A).cols.head?, rec.anchor = 0 ∧ rec.A = A) ∧
      (∀ rec ∈ (rref m n A).cols.getLast?,
        rec.anchorAfter = (rref m n A).anchor ∧ rec.Aafter = (rref m n A).A) ∧
      ((rref m n A).cols = [] → (rref m n A).anchor = 0 ∧ (rref m n A).A = A) ∧
      (rref m n A).anchor ≤ n ∧ (rref m n A).anchor ≤ m := by
  have h := rref_induct m n A hA
    (fun j s => s.cols.map (fun r => r.j) = List.range j ∧
      (∀ rec ∈ s.cols, RecOK m n rec) ∧
      List.Chain' Linked s.cols ∧
      (∀ rec ∈ s.cols.head?, rec.anchor = 0 ∧ rec.A = A) ∧
      (∀ rec ∈ s.cols.getLast?, rec.anchorAfter = s.anchor ∧ rec.Aafter = s.A) ∧
      (s.cols = [] → s.anchor = 0 ∧ s.A = A) ∧
      s.anchor ≤ j)
    (by simp [initState])
    (fun j s hj ha hw hI => records_step m n A j hj s ha hw hI)
  obtain ⟨g0, _, g1, g2, g3, g4, g5, g6, g7⟩ := h
  exact ⟨g1, g2, g3, g4, g5, g6, g7, g0⟩

/-! ## The pivot search, the anchor and the early exit -/

theorem mem_pivotOut {m n j : Nat} {A : Mat} {r p : Nat} {st : Step} :
    st ∈ pivotOut m n j A r p ↔
      (r ≠ p ∧ st = ⟨Narr.swapRows (p + 1) (r + 1), some (swap n A p r)⟩) ∨
      st = ⟨Narr.normalize (r + 1), some (normMat n j A r p)⟩ ∨
      ∃ i, i < m ∧ i ≠ r ∧ st = elimStep n j r (normMat n j A r p) i := by
  unfold pivotOut
  simp only [List.mem_append, List.mem_singleton, List.mem_map, List.mem_filter, List.mem_range,
    decide_eq_true_eq]
  constructor
  · rintro ((h | h) | ⟨i, ⟨h1, h2⟩, h3⟩)
    · by_cases e : r ≠ p
      · rw [if_pos e] at h
        exact Or.inl ⟨e, List.mem_singleton.mp h⟩
      · rw [if_neg e] at h; cases h
    · exact Or.inr (Or.inl h)
    · exact Or.inr (Or.inr ⟨i, h1, h2, h3.symm⟩)
  · rintro (⟨e, h⟩ | h | ⟨i, h1, h2, h3⟩)
    · left; left; rw [if_pos e]; exact List.mem_singleton.mpr h
    · left; right; exact h
    · right; exact ⟨i, ⟨h1, h2⟩, h3.symm⟩

theorem pivotOut_normalize_count (m n j : Nat) (A : Mat) (r p : Nat) :
    ((pivotOut m n j A r p).filter (fun st => st.narr.isNormalize)).length = 1 := by
  unfold pivotOut
  have h1 : (((List.range m).filter (fun i => decide (i ≠ r))).map
      (elimStep n j r (normMat n j A r p))).filter (fun st => st.narr.isNormalize) = [] := by
    rw [List.filter_eq_nil_iff]
    intro st hst
    obtain ⟨i, _, rfl⟩ := List.mem_map.mp hst
    simp [elimStep, Narr.isNormalize]
  rw [List.filter_append, List.filter_append, h1]
  by_cases e : r ≠ p
  · simp [e, Narr.isNormalize]
  · simp [e, Narr.isNormalize]

/-- C12. Pivot-search policy: in every iteration of the column loop, with `A`
the matrix, `j` the column and `r` the anchor when it starts: if some row `a`
with `r <= a < m` has `|A[a][j]| > EPSILON`, the search stops at the smallest
such row `p`; the rows `p` and `r` are exchanged (the normalization acts on
`swap(A, p, r)`); a swap step is written if and only if `p != r`, and it names
`p + 1` and `r + 1` and shows the swapped matrix.  If no such row exists the
column is skipped.  An entry of magnitude exactly `EPSILON` is never
accepted. -/
theorem C12_pivot_search_policy (m n : Nat) (A : Mat) (hA : WF m n A) :
    (rref m n A).cols.map (fun r => r.j) = List.range n ∧
    ∀ rec ∈ (rref m n A).cols,
      ((∃ a, rec.anchor ≤ a ∧ a < m ∧ |get rec.A a rec.j| > EPSILON) →
        ∃ p, rec.found = some p ∧ rec.anchor ≤ p ∧ p < m ∧
          |get rec.A p rec.j| > EPSILON ∧
          (∀ i, rec.anchor ≤ i → i < p → ¬ |get rec.A i rec.j| > EPSILON) ∧
          (⟨Narr.normalize (rec.anchor + 1),
              some (mult n (swap n rec.A p rec.anchor) rec.anchor
                (1 / get (swap n rec.A p rec.anchor) rec.anchor rec.j))⟩ : Step) ∈ rec.out ∧
          ((∃ st ∈ rec.out, st.narr.isSwap = true) ↔ p ≠ rec.anchor) ∧
          (∀ st ∈ rec.out, st.narr.isSwap = true →
            st = ⟨Narr.swapRows (p + 1) (rec.anchor + 1),
                  some (swap n rec.A p rec.anchor)⟩)) ∧
      ((¬ ∃ a, rec.anchor ≤ a ∧ a < m ∧ |get rec.A a rec.j| > EPSILON) →
        rec.found = none ∧ rec.out = [⟨Narr.skipCol (rec.j + 1), none⟩]) ∧
      (∀ a, |get rec.A a rec.j| = EPSILON → rec.found ≠ some a) := by
  obtain ⟨g1, g2, _⟩ := rref_records m n A hA
  refine ⟨g1, fun rec hrec => ?_⟩
  obtain ⟨_, _, _, _, hcase⟩ := g2 rec hrec
  rcases hcase with ⟨f1, f2, f3, _, _⟩ | ⟨p, f1, f2, f3, f4, f5, f6, _, _⟩
  · refine ⟨fun ⟨a, a1, a2, a3⟩ => absurd a3 (f2 a a1 a2), fun _ => ⟨f1, f3⟩, fun a _ => ?_⟩
    rw [f1]; simp
  · refine ⟨fun _ => ⟨p, f1, f2, f3, f4, f5, ?_, ?_, ?_⟩, fun hno => ?_, fun a ha => ?_⟩
    · rw [f6, mem_pivotOut]
      exact Or.inr (Or.inl rfl)
    · constructor
      · rintro ⟨st, hst, hsw⟩
        rw [f6, mem_pivotOut] at hst
        rcases hst with ⟨e, _⟩ | h | ⟨i, _, _, h⟩
        · exact fun x => e x.symm
        · rw [h] at hsw; simp [Narr.isSwap] at hsw
        · rw [h] at hsw; simp [Narr.isSwap, elimStep] at hsw
      · intro e
        refine ⟨⟨Narr.swapRows (p + 1) (rec.anchor + 1), some (swap n rec.A p rec.anchor)⟩,
          ?_, rfl⟩
        rw [f6, mem_pivotOut]
        exact Or.inl ⟨fun x => e x.symm, rfl⟩
    · intro st hst hsw
      rw [f6, mem_pivotOut] at hst
      rcases hst with ⟨_, h⟩ | h | ⟨i, _, _, h⟩
      · exact h
      · rw [h] at hsw; simp [Narr.isSwap] at hsw
      · rw [h] at hsw; simp [Narr.isSwap, elimStep] at hsw
    · exact absurd ⟨p, f2, f3, f4⟩ hno
    · intro h
      rw [f1] at h
      simp only [Option.some.injEq] at h
      subst h
      rw [ha] at f4
      exact lt_irrefl _ f4

/-- The pivot-search policy on a `3 x 3` matrix that needs a swap. -/
theorem C12_pivot_search_policy_witness :
    WF 3 3 [[0, 2, 1], [0, 0, 3], [4, 5, 6]] ∧
    ((rref 3 3 [[0, 2, 1], [0, 0, 3], [4, 5, 6]]).cols.map (fun r => r.j) = List.range 3 ∧
    ∀ rec ∈ (rref 3 3 [[0, 2, 1], [0, 0, 3], [4, 5, 6]]).cols,
      ((∃ a, rec.anchor ≤ a ∧ a < 3 ∧ |get rec.A a rec.j| > EPSILON) →
        ∃ p, rec.found = some p ∧ rec.anchor ≤ p ∧ p < 3 ∧
          |get rec.A p rec.j| > EPSILON ∧
          (∀ i, rec.anchor ≤ i → i < p → ¬ |get rec.A i rec.j| > EPSILON) ∧
          (⟨Narr.normalize (rec.anchor + 1),
              some (mult 3 (swap 3 rec.A p rec.anchor) rec.anchor
                (1 / get (swap 3 rec.A p rec.anchor) rec.anchor rec.j))⟩ : Step) ∈ rec.out ∧
          ((∃ st ∈ rec.out, st.narr.isSwap = true) ↔ p ≠ rec.anchor) ∧
          (∀ st ∈ rec.out, st.narr.isSwap = true →
            st = ⟨Narr.swapRows (p + 1) (rec.anchor + 1),
                  some (swap 3 rec.A p rec.anchor)⟩)) ∧
      ((¬ ∃ a, rec.anchor ≤ a ∧ a < 3 ∧ |get rec.A a rec.j| > EPSILON) →
        rec.found = none ∧ rec.out = [⟨Narr.skipCol (rec.j + 1), none⟩]) ∧
      (∀ a, |get rec.A a rec.j| = EPSILON → rec.found ≠ some a)) :=
  ⟨by decide, C12_pivot_search_policy 3 3 _ (by decide)⟩

theorem RecOK_anchor {m n : Nat} {rec : ColRec} (h : RecOK m n rec) :
    (∀ p, rec.found = some p → rec.anchorAfter = rec.anchor + 1) ∧
    (rec.found = none → rec.anchorAfter = rec.anchor) ∧
    rec.anchor ≤ rec.anchorAfter ∧ rec.anchor ≤ min m n ∧ rec.anchorAfter ≤ min m n := by
  obtain ⟨h1, h2, h3, _, hcase⟩ := h
  rcases hcase with ⟨f1, _, _, f4, _⟩ | ⟨p, f1, f2, f3, _, _, _, f7, _⟩
  · refine ⟨fun p hp => ?_, fun _ => f4, by omega, ?_, ?_⟩
    · rw [f1] at hp; cases hp
    · exact le_min h3 (by omega)
    · rw [f4]; exact le_min h3 (by omega)
  · refine ⟨fun _ _ => f7, fun hn => ?_, by omega, ?_, ?_⟩
    · rw [f1] at hn; cases hn
    · exact le_min h3 (by omega)
    · rw [f7]; exact le_min (by omega) (by omega)

/-- C13. Anchor bound: the anchor row starts at 0; every iteration of the
column loop starts with the anchor the previous one ended with; an iteration
that finds a pivot increases it by exactly 1 and an iteration that skips its
column leaves it unchanged, so it never decreases; and before and after every
iteration, and at the end, it is at most `min(m, n)`. -/
theorem C13_anchor_bound (m n : Nat) (A : Mat) (hA : WF m n A) :
    (initState A).anchor = 0 ∧
    (∀ rec ∈ (rref m n A).cols.head?, rec.anchor = 0) ∧
    List.Chain' (fun r1 r2 : ColRec => r2.anchor = r1.anchorAfter) (rref m n A).cols ∧
    (∀ rec ∈ (rref m n A).cols.getLast?, rec.anchorAfter = (rref m n A).anchor) ∧
    ((rref m n A).cols = [] → (rref m n A).anchor = 0) ∧
    (∀ rec ∈ (rref m n A).cols,
      (∀ p, rec.found = some p → rec.anchorAfter = rec.anchor + 1) ∧
      (rec.found = none → rec.anchorAfter = rec.anchor) ∧
      rec.anchor ≤ rec.anchorAfter ∧ rec.anchor ≤ min m n ∧ rec.anchorAfter ≤ min m n) ∧
    (rref m n A).anchor ≤ min m n := by
  obtain ⟨_, g2, g3, g4, g5, g6, g7, g8⟩ := rref_records m n A hA
  refine ⟨rfl, fun rec hrec => (g4 rec hrec).1, g3.imp (fun _ _ h => h.1),
    fun rec hrec => (g5 rec hrec).1, fun h => (g6 h).1,
    fun rec hrec => RecOK_anchor (g2 rec hrec), le_min g8 g7⟩

/-- The anchor bound on the matrix of `main`. -/
theorem C13_anchor_bound_witness :
    WF 4 4 mainA ∧
    ((initState mainA).anchor = 0 ∧
    (∀ rec ∈ (rref 4 4 mainA).cols.head?, rec.anchor = 0) ∧
    List.Chain' (fun r1 r2 : ColRec => r2.anchor = r1.anchorAfter) (rref 4 4 mainA).cols ∧
    (∀ rec ∈ (rref 4 4 mainA).cols.getLast?, rec.anchorAfter = (rref 4 4 mainA).anchor) ∧
    ((rref 4 4 mainA).cols = [] → (rref 4 4 mainA).anchor = 0) ∧
    (∀ rec ∈ (rref 4 4 mainA).cols,
      (∀ p, rec.found = some p → rec.anchorAfter = rec.anchor + 1) ∧
      (rec.found = none → rec.anchorAfter = rec.anchor) ∧
      rec.anchor ≤ rec.anchorAfter ∧ rec.anchor ≤ min 4 4 ∧ rec.anchorAfter ≤ min 4 4) ∧
    (rref 4 4 mainA).anchor ≤ min 4 4) :=
  ⟨by decide, C13_anchor_bound 4 4 mainA (by decide)⟩

theorem anchor_mono_step (m n : Nat) (j : Nat) (s : State) (ha : s.anchor ≤ m)
    (h : (∀ r ∈ s.cols, r.anchor ≤ s.anchor) ∧
      List.Pairwise (fun r1 r2 : ColRec => r1.anchor ≤ r2.anchor) s.cols) :
    (∀ r ∈ (colStep m n j s).1.cols, r.anchor ≤ (colStep m n j s).1.anchor) ∧
      List.Pairwise (fun r1 r2 : ColRec => r1.anchor ≤ r2.anchor) (colStep m n j s).1.cols := by
  obtain ⟨h1, h2⟩ := h
  rcases colStep_cases m n j s ha with ⟨rd, _, _, hc⟩ | ⟨p, rd, _, _, _, _, _, hc⟩
  all_goals
    rw [hc]
    simp only
    refine ⟨fun r hr => ?_, ?_⟩
    · rcases List.mem_append.mp hr with hr | hr
      · have := h1 r hr; omega
      · have e := List.mem_singleton.mp hr
        subst e
        simp
    · rw [List.pairwise_append]
      refine ⟨h2, List.pairwise_singleton _ _, fun a ha' b hb => ?_⟩
      rw [List.mem_singleton.mp hb]
      exact h1 a ha'

theorem anchor_mono (m n : Nat) (A : Mat) (hA : WF m n A) :
    List.Pairwise (fun r1 r2 : ColRec => r1.anchor ≤ r2.anchor) (rref m n A).cols :=
  (rref_induct m n A hA
    (fun _ s => (∀ r ∈ s.cols, r.anchor ≤ s.anchor) ∧
      List.Pairwise (fun r1 r2 : ColRec => r1.anchor ≤ r2.anchor) s.cols)
    (by simp [initState])
    (fun j s _ ha _ hI => anchor_mono_step m n j s ha hI)).2.2.2

theorem isSome_isNone_count (l : List ColRec) :
    (l.filter (fun r => r.found.isSome)).length + (l.filter (fun r => r.found.isNone)).length
      = l.length := by
  induction l with
  | nil => rfl
  | cons x xs ih =>
    cases hx : x.found with
    | none => simp [List.filter_cons, hx]; omega
    | some p => simp [List.filter_cons, hx]; omega

theorem pivotOut_skip_count (m n j : Nat) (A : Mat) (r p : Nat) :
    (pivotOut m n j A r p).filter (fun st => st.narr.isSkip) = [] := by
  rw [List.filter_eq_nil_iff]
  intro st hst
  rcases mem_pivotOut.mp hst with ⟨_, h⟩ | h | ⟨i, _, _, h⟩ <;> rw [h] <;>
    simp [Narr.isSkip, elimStep]

/-- C20. The early-exit branch is never taken: after every iteration of the
column loop `anchor <= m`, so the test `anchor > m` fails and the loop body
never ends with `break`; the loop runs once for every column `0 .. n-1`, in
increasing order.  Every iteration writes either exactly one skip step (and
nothing else) or exactly one normalize step (and no skip step), and the
skipped and the pivoted columns add up to `n`.  An iteration that starts with
`anchor = m` writes a skip step and leaves the matrix and the anchor
unchanged; since the anchor never decreases, so do all iterations after it. -/
theorem C20_no_early_exit (m n : Nat) (A : Mat) (hA : WF m n A) :
    (rref m n A).cols.map (fun r => r.j) = List.range n ∧
    (∀ rec ∈ (rref m n A).cols, ¬ rec.anchorAfter > m ∧
      (colStep m n rec.j
        { A := rec.A, anchor := rec.anchor, steps := [], cols := [], evs := [] }).2 = false) ∧
    (∀ rec ∈ (rref m n A).cols,
      (rec.found = none ∧ rec.out = [⟨Narr.skipCol (rec.j + 1), none⟩]) ∨
      (rec.found.isSome = true ∧
        (rec.out.filter (fun st => st.narr.isNormalize)).length = 1 ∧
        (rec.out.filter (fun st => st.narr.isSkip)).length = 0)) ∧
    pivotCount (rref m n A) + skipCount (rref m n A) = n ∧
    (∀ rec ∈ (rref m n A).cols, rec.anchor = m →
      rec.found = none ∧ rec.out = [⟨Narr.skipCol (rec.j + 1), none⟩] ∧
      rec.Aafter = rec.A ∧ rec.anchorAfter = m) ∧
    List.Pairwise (fun r1 r2 : ColRec => r1.j < r2.j ∧ r1.anchor ≤ r2.anchor)
      (rref m n A).cols ∧
    (∀ rec ∈ (rref m n A).cols, rec.anchor ≤ m) := by
  obtain ⟨g1, g2, _⟩ := rref_records m n A hA
  have hlen : (rref m n A).cols.length = n := by
    have := congrArg List.length g1
    simpa using this
  refine ⟨g1, fun rec hrec => ?_, fun rec hrec => ?_, ?_, fun rec hrec hm => ?_, ?_,
    fun rec hrec => (g2 rec hrec).2.2.1⟩
  · obtain ⟨_, _, h3, _, _⟩ := g2 rec hrec
    have hb := (RecOK_anchor (g2 rec hrec)).2.2.2.2
    refine ⟨by have := min_le_left m n; omega, ?_⟩
    rcases colStep_cases m n rec.j
      { A := rec.A, anchor := rec.anchor, steps := [], cols := [], evs := [] } h3
      with ⟨_, _, _, hc⟩ | ⟨_, _, _, _, _, _, _, hc⟩ <;> rw [hc]
  · obtain ⟨_, _, _, _, hcase⟩ := g2 rec hrec
    rcases hcase with ⟨f1, _, f3, _, _⟩ | ⟨p, f1, _, _, _, _, f6, _, _⟩
    · exact Or.inl ⟨f1, f3⟩
    · right
      rw [f1, f6, pivotOut_normalize_count, pivotOut_skip_count]
      exact ⟨rfl, rfl, rfl⟩
  · unfold pivotCount skipCount
    rw [isSome_isNone_count, hlen]
  · obtain ⟨_, _, _, _, hcase⟩ := g2 rec hrec
    rcases hcase with ⟨f1, _, f3, f4, f5⟩ | ⟨p, _, f2, f3, _⟩
    · exact ⟨f1, f3, f5, by rw [f4, hm]⟩
    · omega
  · have hj : List.Pairwise (fun r1 r2 : ColRec => r1.j < r2.j) (rref m n A).cols := by
      have := List.pairwise_lt_range n
      rw [← g1, List.pairwise_map] at this
      exact this
    exact hj.and (anchor_mono m n A hA)

/-- The absence of an early exit on the matrix of `main`. -/
theorem C20_no_early_exit_witness :
    WF 4 4 mainA ∧
    ((rref 4 4 mainA).cols.map (fun r => r.j) = List.range 4 ∧
    (∀ rec ∈ (rref 4 4 mainA).cols, ¬ rec.anchorAfter > 4 ∧
      (colStep 4 4 rec.j
        { A := rec.A, anchor := rec.anchor, steps := [], cols := [], evs := [] }).2 = false) ∧
    (∀ rec ∈ (rref 4 4 mainA).cols,
      (rec.found = none ∧ rec.out = [⟨Narr.skipCol (rec.j + 1), none⟩]) ∨
      (rec.found.isSome = true ∧
        (rec.out.filter (fun st => st.narr.isNormalize)).length = 1 ∧
        (rec.out.filter (fun st => st.narr.isSkip)).length = 0)) ∧
    pivotCount (rref 4 4 mainA) + skipCount (rref 4 4 mainA) = 4 ∧
    (∀ rec ∈ (rref 4 4 mainA).cols, rec.anchor = 4 →
      rec.found = none ∧ rec.out = [⟨Narr.skipCol (rec.j + 1), none⟩] ∧
      rec.Aafter = rec.A ∧ rec.anchorAfter = 4) ∧
    List.Pairwise (fun r1 r2 : ColRec => r1.j < r2.j ∧ r1.anchor ≤ r2.anchor)
      (rref 4 4 mainA).cols ∧
    (∀ rec ∈ (rref 4 4 mainA).cols, rec.anchor ≤ 4)) :=
  ⟨by decide, C20_no_early_exit 4 4 mainA (by decide)⟩

/-! ## Replaying the trace -/

theorem replay_append (n : Nat) (l1 l2 : List Step) :
    ∀ (A : Mat) (j : Nat) (B : Mat) (k : Nat), replay n l1 A j = some (B, k) →
      replay n (l1 ++ l2) A j = replay n l2 B k := by
  induction l1 with
  | nil =>
    intro A j B k h
    simp only [replay, Option.some.injEq, Prod.mk.injEq] at h
    obtain ⟨rfl, rfl⟩ := h
    rfl
  | cons st rest ih =>
    intro A j B k h
    simp only [List.cons_append, replay] at h ⊢
    rcases hrs : replayStep n st A j with _ | ⟨B1, k1⟩
    · rw [hrs] at h; cases h
    · rw [hrs] at h
      simp only at h ⊢
      by_cases hs : st.snap = expectedSnap st B1
      · rw [if_pos hs] at h ⊢
        exact ih B1 k1 B k h
      · rw [if_neg hs] at h; cases h

theorem replay_elim (n j r : Nat) (C : Mat) (k : Nat) :
    ∀ t, replay n (((List.range t).filter (fun i => decide (i ≠ r))).map (elimStep n j r C))
      C k = some (elimMat n j r C t, k) := by
  intro t
  induction t with
  | zero => simp [replay, elimMat]
  | succ t ih =>
    rw [List.range_succ, List.filter_append, List.map_append, replay_append n _ _ C k _ k ih,
      elimMat_succ]
    by_cases h : t ≠ r
    · have hd : decide (t ≠ r) = true := by simp [h]
      simp only [List.filter_cons, hd, if_true, List.filter_nil, List.map_cons, List.map_nil,
        if_pos h]
      simp only [replay, replayStep, elimStep, expectedSnap, Nat.add_sub_cancel, elimMat_succ,
        if_pos h, if_true]
    · have hd : decide (t ≠ r) = false := by simp [h]
      simp only [List.filter_cons, hd, List.filter_nil, List.map_nil, if_neg h]
      simp [replay]

/-- Replaying the steps of an iteration that found a pivot gives the matrix
the iteration ends with. -/
theorem replay_pivotOut {m n : Nat} {A : Mat} (hA : WF m n A) (j : Nat) {r p : Nat}
    (hr : r < m) :
    replay n (pivotOut m n j A r p) A j
      = some (elimMat n j r (normMat n j A r p) m, j + 1) := by
  unfold pivotOut
  have hnorm : ∀ B, B = swap n A p r →
      replay n [⟨Narr.normalize (r + 1), some (normMat n j A r p)⟩] B j
        = some (normMat n j A r p, j + 1) := by
    intro B hB
    subst hB
    simp [replay, replayStep, expectedSnap, normMat]
  by_cases e : r ≠ p
  · rw [if_pos e]
    have h1 : replay n ([⟨Narr.swapRows (p + 1) (r + 1), some (swap n A p r)⟩] ++
        [⟨Narr.normalize (r + 1), some (normMat n j A r p)⟩]) A j
        = some (normMat n j A r p, j + 1) := by
      rw [replay_append n _ _ A j (swap n A p r) j (by simp [replay, replayStep, expectedSnap])]
      exact hnorm _ rfl
    rw [replay_append n _ _ A j _ _ h1]
    exact replay_elim n j r _ (j + 1) m
  · rw [if_neg e]
    have e2 : p = r := by
      by_contra hne
      exact e (fun x => hne x.symm)
    subst e2
    have h1 : replay n ([] ++ [⟨Narr.normalize (p + 1), some (normMat n j A p p)⟩]) A j
        = some (normMat n j A p p, j + 1) :=
      hnorm A (swap_self hA hr).symm
    rw [replay_append n _ _ A j _ _ h1]
    exact replay_elim n j p _ (j + 1) m

theorem replay_step (m n : Nat) (A0 : Mat) (j : Nat) (s : State) (ha : s.anchor ≤ m)
    (hw : WF m n s.A)
    (h : s.steps = ⟨Narr.initial, some A0⟩ :: (s.cols.map (fun r => r.out)).flatten ∧
      replay n (s.cols.map (fun r => r.out)).flatten A0 0 = some (s.A, j)) :
    (colStep m n j s).1.steps = ⟨Narr.initial, some A0⟩ ::
        ((colStep m n j s).1.cols.map (fun r => r.out)).flatten ∧
      replay n ((colStep m n j s).1.cols.map (fun r => r.out)).flatten A0 0
        = some ((colStep m n j s).1.A, j + 1) := by
  obtain ⟨h1, h2⟩ := h
  rcases colStep_cases m n j s ha with ⟨rd, _, _, hc⟩ | ⟨p, rd, _, hp1, hp2, _, _, hc⟩
  · rw [hc]
    simp only [List.map_append, List.flatten_append, List.map_cons, List.map_nil,
      List.flatten_cons, List.flatten_nil, List.append_nil]
    refine ⟨by rw [h1]; rfl, ?_⟩
    rw [replay_append n _ _ A0 0 _ _ h2]
    simp [replay, replayStep, expectedSnap]
  · rw [hc]
    simp only [List.map_append, List.flatten_append, List.map_cons, List.map_nil,
      List.flatten_cons, List.flatten_nil, List.append_nil]
    refine ⟨by rw [h1]; rfl, ?_⟩
    rw [replay_append n _ _ A0 0 _ _ h2, pivotIter_out, pivotIter_A]
    exact replay_pivotOut hw j (by omega)

/-- The last snapshot of a replayed list of steps is the matrix the replay
ends with; a list without snapshots leaves the matrix as it was. -/
theorem replay_last_snap (n : Nat) (ops : List Step) :
    ∀ (A : Mat) (j : Nat) (R : Mat) (k : Nat), replay n ops A j = some (R, k) →
      (∀ B ∈ (ops.filterMap (fun st => st.snap)).getLast?, B = R) ∧
      (ops.filterMap (fun st => st.snap) = [] → R = A) := by
  induction ops with
  | nil =>
    intro A j R k h
    simp only [replay, Option.some.injEq, Prod.mk.injEq] at h
    exact ⟨fun B hB => by simp at hB, fun _ => h.1.symm⟩
  | cons st rest ih =>
    intro A j R k h
    simp only [replay] at h
    rcases hrs : replayStep n st A j with _ | ⟨B1, k1⟩
    · rw [hrs] at h; cases h
    · rw [hrs] at h
      simp only at h
      by_cases hs : st.snap = expectedSnap st B1
      · rw [if_pos hs] at h
        obtain ⟨i1, i2⟩ := ih B1 k1 R k h
        -- a step without snapshot is a skip step, which leaves the matrix unchanged
        have hskip : st.snap = none → B1 = A := by
          intro hn
          rw [hn] at hs
          unfold replayStep at hrs
          unfold expectedSnap at hs
          cases hnarr : st.narr <;> rw [hnarr] at hs hrs <;> simp at hs hrs
          exact hrs.1.symm
        have hsome : ∀ B, st.snap = some B → B = B1 := by
          intro B hB
          rw [hB] at hs
          unfold expectedSnap at hs
          cases hnarr : st.narr <;> rw [hnarr] at hs <;> simp at hs <;> exact hs
        cases hsn : st.snap with
        | none =>
          rw [List.filterMap_cons, hsn]
          simp only
          have := hskip hsn
          subst this
          exact ⟨i1, i2⟩
        | some B =>
          rw [List.filterMap_cons, hsn]
          simp only
          have hB := hsome B hsn
          subst hB
          refine ⟨fun B' hB' => ?_, fun hnil => by simp at hnil⟩
          cases hrest : rest.filterMap (fun st => st.snap) with
          | nil =>
            rw [hrest] at hB'
            simp only [List.getLast?_singleton, Option.mem_def, Option.some.injEq] at hB'
            rw [← hB']
            exact (i2 hrest).symm
          | cons x xs =>
            apply i1
            rw [hrest] at hB' ⊢
            rw [List.getLast?_cons_cons] at hB'
            exact hB'
      · rw [if_neg hs] at h; cases h

/-- C11. Trace faithfulness: the trace of `rref` is the initial step, carrying
the unmodified input matrix, then the operation steps (the steps written by
the iterations of the column loop, in order), then the final step, carrying
the matrix `rref` returns.  Replaying the operation steps in this order from
the input matrix reproduces after every step exactly the snapshot written
with that step (none for a skip) and ends, after all `n` columns, with the
matrix `rref` returns; so the last snapshot of an operation step is the final
snapshot. -/
theorem C11_trace_faithful (m n : Nat) (A : Mat) (hA : WF m n A) :
    ∃ ops, (rref m n A).steps =
        ⟨Narr.initial, some A⟩ :: (ops ++ [⟨Narr.final, some (rref m n A).A⟩]) ∧
      ops = ((rref m n A).cols.map (fun r => r.out)).flatten ∧
      (rref m n A).steps.head? = some ⟨Narr.initial, some A⟩ ∧
      (rref m n A).steps.getLast? = some ⟨Narr.final, some (rref m n A).A⟩ ∧
      replay n ops A 0 = some ((rref m n A).A, n) ∧
      (∀ B ∈ (ops.filterMap (fun st => st.snap)).getLast?, B = (rref m n A).A) := by
  have h := rref_induct m n A hA
    (fun j s => s.steps = ⟨Narr.initial, some A⟩ :: (s.cols.map (fun r => r.out)).flatten ∧
      replay n (s.cols.map (fun r => r.out)).flatten A 0 = some (s.A, j))
    (by simp [initState, replay])
    (fun j s _ ha hw hI => replay_step m n A j s ha hw hI)
  obtain ⟨_, _, h1, h2⟩ := h
  have hsteps : (rref m n A).steps = ⟨Narr.initial, some A⟩ ::
      (((rref m n A).cols.map (fun r => r.out)).flatten ++
        [⟨Narr.final, some (rref m n A).A⟩]) := by
    rw [rref_steps, h1]; rfl
  refine ⟨_, hsteps, rfl, ?_, ?_, h2, (replay_last_snap n _ A 0 _ n h2).1⟩
  · rw [hsteps]; rfl
  · rw [hsteps, List.getLast?_cons, List.getLast?_append]
    simp

/-- The trace faithfulness on the matrix of `main`. -/
theorem C11_trace_faithful_witness :
    WF 4 4 mainA ∧
    ∃ ops, (rref 4 4 mainA).steps =
        ⟨Narr.initial, some mainA⟩ :: (ops ++ [⟨Narr.final, some (rref 4 4 mainA).A⟩]) ∧
      ops = ((rref 4 4 mainA).cols.map (fun r => r.out)).flatten ∧
      (rref 4 4 mainA).steps.head? = some ⟨Narr.initial, some mainA⟩ ∧
      (rref 4 4 mainA).steps.getLast? = some ⟨Narr.final, some (rref 4 4 mainA).A⟩ ∧
      replay 4 ops mainA 0 = some ((rref 4 4 mainA).A, 4) ∧
      (∀ B ∈ (ops.filterMap (fun st => st.snap)).getLast?, B = (rref 4 4 mainA).A) :=
  ⟨by decide, C11_trace_faithful 4 4 mainA (by decide)⟩

/-! ## Row equivalence -/

theorem sum_ite_val {m : Nat} {t : Nat} (ht : t < m) (c : ℚ) (f : Fin m → ℚ) :
    ∑ l : Fin m, (if l.val = t then c else 0) * f l = c * f ⟨t, ht⟩ := by
  rw [Finset.sum_eq_single (⟨t, ht⟩ : Fin m)]
  · simp
  · intro l _ hl
    have : l.val ≠ t := fun h => hl (Fin.ext h)
    simp [this]
  · intro h; exact absurd (Finset.mem_univ _) h

theorem swapE_mul {m k : Nat} {a b : Nat} (ha : a < m) (hb : b < m)
    (M : Matrix (Fin m) (Fin k) ℚ) (i : Fin m) (c : Fin k) :
    (swapE m a b * M) i c =
      if i.val = a then M ⟨b, hb⟩ c else if i.val = b then M ⟨a, ha⟩ c else M i c := by
  rw [Matrix.mul_apply]
  unfold swapE
  have ht : (if i.val = a then b else if i.val = b then a else i.val) < m := by
    split_ifs
    · exact hb
    · exact ha
    · exact i.isLt
  rw [sum_ite_val ht, one_mul]
  by_cases h1 : i.val = a
  · have e : M ⟨_, ht⟩ c = M ⟨b, hb⟩ c := by
      congr 1
      exact Fin.ext (by simp [h1])
    exact e.trans (by rw [if_pos h1])
  · by_cases h2 : i.val = b
    · have e : M ⟨_, ht⟩ c = M ⟨a, ha⟩ c := by
        congr 1
        exact Fin.ext (by simp [h1, h2])
      exact e.trans (by rw [if_neg h1, if_pos h2])
    · have e : M ⟨_, ht⟩ c = M i c := by
        congr 1
        exact Fin.ext (by simp [h1, h2])
      exact e.trans (by rw [if_neg h1, if_neg h2])

theorem multE_mul {m k : Nat} (a : Nat) (x : ℚ)
    (M : Matrix (Fin m) (Fin k) ℚ) (i : Fin m) (c : Fin k) :
    (multE m a x * M) i c = (if i.val = a then x else 1) * M i c := by
  rw [Matrix.mul_apply]
  unfold multE
  rw [sum_ite_val i.isLt]

theorem addE_mul {m k : Nat} (a : Nat) {b : Nat} (hb : b < m) (x : ℚ)
    (M : Matrix (Fin m) (Fin k) ℚ) (i : Fin m) (c : Fin k) :
    (addE m a b x * M) i c = M i c + (if i.val = a then x * M ⟨b, hb⟩ c else 0) := by
  rw [Matrix.mul_apply]
  unfold addE
  simp only [add_mul, Finset.sum_add_distrib]
  rw [sum_ite_val i.isLt, one_mul]
  by_cases h : i.val = a
  · have e : ∀ l : Fin m, (if i.val = a ∧ l.val = b then x else 0) * M l c
        = (if l.val = b then x else 0) * M l c := by
      intro l; simp only [h, true_and]
    rw [Finset.sum_congr rfl (fun l _ => e l), sum_ite_val hb, if_pos h]
  · have e : ∀ l : Fin m, (if i.val = a ∧ l.val = b then x else 0) * M l c = 0 := by
      intro l; simp only [h, false_and, if_false, zero_mul]
    rw [Finset.sum_congr rfl (fun l _ => e l), if_neg h]
    simp

theorem swapE_inv {m : Nat} {a b : Nat} (ha : a < m) (hb : b < m) :
    swapE m a b * swapE m a b = 1 := by
  ext i l
  rw [swapE_mul ha hb, Matrix.one_apply]
  unfold swapE
  have hil : (i = l) ↔ l.val = i.val := ⟨fun e => by rw [e], fun e => Fin.ext e.symm⟩
  simp only [hil]
  by_cases h1 : i.val = a
  · rw [if_pos h1]
    try dsimp only
    by_cases h2 : b = a
    · rw [if_pos h2, h1, h2]
    · rw [if_neg h2, if_pos trivial, h1]
  · rw [if_neg h1]
    by_cases h2 : i.val = b
    · rw [if_pos h2]
      try dsimp only
      rw [if_pos trivial, h2]
    · rw [if_neg h2, if_neg h1, if_neg h2]

theorem multE_inv {m : Nat} (a : Nat) {x : ℚ} (hx : x ≠ 0) :
    multE m a (1 / x) * multE m a x = 1 := by
  ext i l
  rw [multE_mul, Matrix.one_apply]
  unfold multE
  have hil : (i = l) ↔ l.val = i.val := ⟨fun e => by rw [e], fun e => Fin.ext e.symm⟩
  simp only [hil]
  by_cases h2 : l.val = i.val
  · rw [if_pos h2, if_pos h2]
    by_cases h1 : i.val = a
    · rw [if_pos h1, if_pos h1]; field_simp
    · rw [if_neg h1, if_neg h1]; ring
  · rw [if_neg h2, if_neg h2]; ring

theorem addE_inv {m : Nat} {a b : Nat} (hb : b < m) (hab : a ≠ b) (x : ℚ) :
    addE m a b (-x) * addE m a b x = 1 := by
  ext i l
  rw [addE_mul a hb, Matrix.one_apply]
  unfold addE
  have hil : (i = l) ↔ l.val = i.val := ⟨fun e => by rw [e], fun e => Fin.ext e.symm⟩
  have hba : ¬ (b = a ∧ l.val = b) := fun e => hab e.1.symm
  simp only [hil, if_neg hba, add_zero]
  by_cases h1 : i.val = a
  · rw [if_pos h1]
    by_cases h3 : l.val = b
    · have h2 : ¬ l.val = i.val := by rw [h1, h3]; exact fun e => hab e.symm
      rw [if_neg h2, if_pos ⟨h1, h3⟩, if_pos h3]; ring
    · have h4 : ¬ (i.val = a ∧ l.val = b) := fun e => h3 e.2
      rw [if_neg h4, if_neg h3]; ring
  · have h4 : ¬ (i.val = a ∧ l.val = b) := fun e => h1 e.1
    rw [if_neg h1, if_neg h4]; ring

theorem RowEquiv.refl (m n : Nat) (A : Mat) : RowEquiv m n A A :=
  ⟨1, 1, by simp, by simp, by simp⟩

theorem RowEquiv.trans {m n : Nat} {A B C : Mat} (h1 : RowEquiv m n A B)
    (h2 : RowEquiv m n B C) : RowEquiv m n A C := by
  obtain ⟨E1, F1, a1, b1, c1⟩ := h1
  obtain ⟨E2, F2, a2, b2, c2⟩ := h2
  refine ⟨E2 * E1, F1 * F2, ?_, ?_, ?_⟩
  · calc F1 * F2 * (E2 * E1) = F1 * (F2 * E2) * E1 := by simp only [Matrix.mul_assoc]
      _ = 1 := by rw [a2, Matrix.mul_one, a1]
  · calc E2 * E1 * (F1 * F2) = E2 * (E1 * F1) * F2 := by simp only [Matrix.mul_assoc]
      _ = 1 := by rw [b1, Matrix.mul_one, b2]
  · rw [Matrix.mul_assoc, c1, c2]

theorem rowEquiv_swap {m n : Nat} {A : Mat} (hA : WF m n A) {a b : Nat}
    (ha : a < m) (hb : b < m) : RowEquiv m n A (swap n A a b) := by
  refine ⟨swapE m a b, swapE m a b, swapE_inv ha hb, swapE_inv ha hb, ?_⟩
  ext i k
  rw [swapE_mul ha hb]
  simp only [toMatrix]
  rw [get_swap hA ha hb]

theorem rowEquiv_mult {m n : Nat} {A : Mat} (hA : WF m n A) {a : Nat}
    (ha : a < m) {x : ℚ} (hx : x ≠ 0) : RowEquiv m n A (mult n A a x) := by
  refine ⟨multE m a x, multE m a (1 / x), multE_inv a hx, ?_, ?_⟩
  · have := multE_inv (m := m) a (one_div_ne_zero hx)
    rwa [one_div_one_div] at this
  · ext i k
    rw [multE_mul]
    simp only [toMatrix]
    rw [get_mult hA ha]
    by_cases h : i.val = a
    · rw [if_pos h, if_pos h, h]; ring
    · rw [if_neg h, if_neg h]; ring

theorem rowEquiv_add {m n : Nat} {A : Mat} (hA : WF m n A) {a b : Nat}
    (ha : a < m) (hb : b < m) (hab : a ≠ b) (x : ℚ) : RowEquiv m n A (add n A a b x) := by
  refine ⟨addE m a b x, addE m a b (-x), addE_inv hb hab x, ?_, ?_⟩
  · have := addE_inv (m := m) hb hab (-x)
    rwa [neg_neg] at this
  · ext i k
    rw [addE_mul a hb]
    simp only [toMatrix]
    rw [get_add hA ha]
    by_cases h : i.val = a
    · rw [if_pos h, if_pos h, h]
    · rw [if_neg h, if_neg h]; ring

theorem rowEquiv_elimMat {m n : Nat} {C : Mat} (hC : WF m n C) (j : Nat) {r : Nat}
    (hr : r < m) : ∀ t, t ≤ m → RowEquiv m n C (elimMat n j r C t) := by
  intro t
  induction t with
  | zero => intro _; exact RowEquiv.refl m n C
  | succ t ih =>
    intro ht
    rw [elimMat_succ]
    by_cases h : t ≠ r
    · rw [if_pos h]
      exact (ih (by omega)).trans
        (rowEquiv_add (elimMat_spec j hC t (by omega)).1 (by omega) hr h _)
    · rw [if_neg h]
      exact ih (by omega)

theorem rowEquiv_pivotIter {m n : Nat} {A : Mat} (hA : WF m n A) (j : Nat) {r p : Nat}
    (hr : r < m) (hp : p < m) (hd : get A p j ≠ 0) (rd : List Ev) :
    RowEquiv m n A (pivotIter m n j A r p rd).A := by
  rw [pivotIter_A]
  have h1 : RowEquiv m n A (normMat n j A r p) := by
    unfold normMat
    refine (rowEquiv_swap hA hp hr).trans (rowEquiv_mult (WF_swap hA hp hr) hr ?_)
    rw [get_swap_anchor hA j hr hp]
    exact one_div_ne_zero hd
  exact h1.trans (rowEquiv_elimMat (WF_normMat hA j hr hp) j hr m (le_refl m))

theorem rowEquiv_step (m n : Nat) (A0 : Mat) (j : Nat) (s : State) (ha : s.anchor ≤ m)
    (hw : WF m n s.A) (h : RowEquiv m n A0 s.A) :
    RowEquiv m n A0 (colStep m n j s).1.A := by
  rcases colStep_cases m n j s ha with ⟨rd, _, _, hc⟩ | ⟨p, rd, _, hp1, hp2, hp3, _, hc⟩
  · rw [hc]; exact h
  · rw [hc]
    exact h.trans (rowEquiv_pivotIter hw j (by omega) hp2 (ne_zero_of_abs_gt hp3) rd)

/-- C18. Row equivalence: the matrix `rref` returns is `E * A` for an
invertible `m x m` matrix `E` (a product of the elementary matrices of the
row exchanges, the scalings by the non-zero factor `1 / pivot` and the
additions of a multiple of the anchor row to another row that `rref`
applies).  Hence a vector `x` satisfies `A * x = 0` if and only if it
satisfies `rref(A) * x = 0`. -/
theorem C18_row_equivalent (m n : Nat) (A : Mat) (hA : WF m n A) :
    (∃ E E' : Matrix (Fin m) (Fin m) ℚ, E' * E = 1 ∧ E * E' = 1 ∧ IsUnit E ∧
      E * toMatrix m n A = toMatrix m n (rref m n A).A) ∧
    ∀ x : Fin n → ℚ,
      (toMatrix m n A).mulVec x = 0 ↔ (toMatrix m n (rref m n A).A).mulVec x = 0 := by
  have h := rref_induct m n A hA (fun _ s => RowEquiv m n A s.A) (RowEquiv.refl m n A)
    (fun j s _ ha hw hI => rowEquiv_step m n A j s ha hw hI)
  obtain ⟨E, E', h1, h2, h3⟩ := h.2.2
  have h3' : E * toMatrix m n A = toMatrix m n (rref m n A).A := h3
  refine ⟨⟨E, E', h1, h2, ⟨⟨E, E', h2, h1⟩, rfl⟩, h3'⟩, fun x => ?_⟩
  constructor
  · intro hx
    rw [← h3', ← Matrix.mulVec_mulVec, hx, Matrix.mulVec_zero]
  · intro hx
    have e : toMatrix m n A = E' * toMatrix m n (rref m n A).A := by
      rw [← h3', ← Matrix.mul_assoc, h1, Matrix.one_mul]
    rw [e, ← Matrix.mulVec_mulVec, hx, Matrix.mulVec_zero]

/-- The row equivalence on the matrix of `main`. -/
theorem C18_row_equivalent_witness :
    WF 4 4 mainA ∧
    ((∃ E E' : Matrix (Fin 4) (Fin 4) ℚ, E' * E = 1 ∧ E * E' = 1 ∧ IsUnit E ∧
      E * toMatrix 4 4 mainA = toMatrix 4 4 (rref 4 4 mainA).A) ∧
    ∀ x : Fin 4 → ℚ,
      (toMatrix 4 4 mainA).mulVec x = 0 ↔ (toMatrix 4 4 (rref 4 4 mainA).A).mulVec x = 0) :=
  ⟨by decide, C18_row_equivalent 4 4 mainA (by decide)⟩

/-! ## A zero column and overflow -/

/-- C9, as stated, fails for `double` entries.  The `4 x 4` input
`[[2e-6, 0, 1e308, 0], [1, 0, 1, 0], [0, 0, 0, 3], [0, 0, 0, 0]]` is finite
and its second column is zero.  Normalizing the first row overflows
(`1e308 * 5e5`), the third column is then normalized by `1 / -inf = 0`, and
the elimination with factor `-inf` writes `-inf * 0 = NaN` into the second
column: it is not zero in the output.  Over exact arithmetic the same input
keeps its second column zero. -/
theorem C9_zero_column_overflow :
    (∀ i < 4, Fp.get (Fp.ofExact
        [[2 / 1000000, 0, 10 ^ 308, 0], [1, 0, 1, 0], [0, 0, 0, 3], [0, 0, 0, 0]]) i 1
      = FV.fin 0) ∧
    Fp.get (Fp.rref 4 4 (Fp.ofExact
        [[2 / 1000000, 0, 10 ^ 308, 0], [1, 0, 1, 0], [0, 0, 0, 3], [0, 0, 0, 0]])) 0 1
      = FV.nan ∧
    ¬ (∀ i < 4, Fp.get (Fp.rref 4 4 (Fp.ofExact
        [[2 / 1000000, 0, 10 ^ 308, 0], [1, 0, 1, 0], [0, 0, 0, 3], [0, 0, 0, 0]])) i 1
      = FV.fin 0) ∧
    (∀ i < 4, get (rref 4 4
        [[2 / 1000000, 0, 10 ^ 308, 0], [1, 0, 1, 0], [0, 0, 0, 3], [0, 0, 0, 0]]).A i 1
      = 0) := by
  decide!

/-! ## Full row rank -/

end GJE
